import Mathlib

/-!
# GAS input-file module (`gas/input-file.c`)

A shallow embedding of the module that opens assembler source files and hands
them out in `BUFFER_SIZE` chunks, together with the small part of C stdio
(`getc`, `ungetc`, `fgets`, `fread`, `fclose`, `fopen`) that it calls.

Conventions of the embedding:

* a byte is a `Nat` (the value of an `unsigned char`); `getc` yields
  `none` for `EOF`;
* a `FILE` is the sequence of events the device will still deliver (bytes and
  read errors, pushed-back bytes in front), with the sticky end-of-file and
  error indicators;
* a `FILE *` is a handle (`Nat`) into the table of open streams of the
  `World`; `stdin` is handle `0`;
* `preprocess` and the hint `pre` are C `int`s (`Int`), tested for non-zero;
* an operation returns `none` where the C program has no defined behaviour
  (a stdio call on a closed or null stream) or aborts (`gas_assert`).
-/

namespace InputFile

/-! ## Bytes and streams -/

/-- One item the input device delivers on a read: a byte, or a read error. -/
inductive Ev where
  | byte (b : Nat)
  | fail
  deriving DecidableEq

/-- A stdio stream: what is still to be read, and its sticky indicators.
`close_fails` says whether `fclose` on it will report failure. -/
structure FILE where
  content : List Ev
  eof : Bool
  err : Bool
  close_fails : Bool
  deriving DecidableEq

/-- The call `getc (f)`: next byte, or `none` (EOF) with the end-of-file or error
indicator set. -/
def getc (f : FILE) : Option Nat × FILE :=
  if f.eof then (none, f)
  else
    match f.content with
    | [] => (none, { f with eof := true })
    | Ev.fail :: rest => (none, { f with content := rest, err := true })
    | Ev.byte b :: rest => (some b, { f with content := rest })

/-- The call `ungetc (b, f)`: push one byte back; clears the end-of-file indicator. -/
def ungetc (b : Nat) (f : FILE) : FILE :=
  { f with content := Ev.byte b :: f.content, eof := false }

/-- Loop of `fgets`: read at most `fuel` more bytes, stopping after a
newline.  End-of-file with nothing read, or a read error, gives `NULL`. -/
def fgets_loop : Nat → List Nat → FILE → Option (List Nat) × FILE
  | 0, acc, f => (some acc, f)
  | fuel + 1, acc, f =>
    if f.eof then ((if acc = [] then none else some acc), f)
    else
      match f.content with
      | [] => ((if acc = [] then none else some acc), { f with eof := true })
      | Ev.fail :: rest => (none, { f with content := rest, err := true })
      | Ev.byte b :: rest =>
        if b = 10 then (some (acc ++ [b]), { f with content := rest })
        else fgets_loop fuel (acc ++ [b]) { f with content := rest }

/-- The call `fgets (buf, n, f)`: the bytes stored in `buf` before the terminating
NUL (at most `n - 1`), or `none` for a `NULL` result. -/
def fgets (n : Nat) (f : FILE) : Option (List Nat) × FILE :=
  fgets_loop (n - 1) [] f

/-- The call `fread (buf, 1, n, f)`: the bytes read (their number is the result). -/
def fread : Nat → FILE → List Nat × FILE
  | 0, f => ([], f)
  | n + 1, f =>
    if f.eof then ([], f)
    else
      match f.content with
      | [] => ([], { f with eof := true })
      | Ev.fail :: rest => ([], { f with content := rest, err := true })
      | Ev.byte b :: rest =>
        let r := fread n { f with content := rest }
        (b :: r.1, r.2)

/-! ## C strings held in a buffer -/

/-- The C string stored in a buffer holding `buf` followed by NUL: the bytes
before the first NUL. -/
def cstr (buf : List Nat) : List Nat :=
  buf.takeWhile (fun b => b != 0)

/-- The value of `p[i]` for a buffer holding `buf` followed by the terminating NUL. -/
def char_at (buf : List Nat) (i : Nat) : Nat :=
  (buf ++ [0]).getD i 0

/-- The test `startswith (p, lit)`, that is `strncmp (p, lit, strlen (lit)) == 0`. -/
def startswith (buf : List Nat) (lit : List Nat) : Bool :=
  (cstr buf).take lit.length == lit

/-- The test `strchr (p, c) != NULL` for `c != 0`. -/
def strchr (buf : List Nat) (c : Nat) : Bool :=
  (cstr buf).contains c

/-! ## Diagnostics, scrubber, configuration -/

/-- A report sent to the diagnostic sink (`as_bad`, `as_warn`). -/
inductive Diag where
  | bad_open (name : Option String)
  | bad_read (name : Option String)
  | warn_close (name : Option String)
  | warn_other (text : String)
  deriving DecidableEq

/-- Internal state of the scrubber (`app.c`), never inspected here. -/
abbrev AppState := Nat

/-- One run of `do_scrub_chars`, seen from this module: it may call the
supplier callback it was given any number of times and then returns the
scrubbed bytes and its new internal state. -/
inductive Scrub where
  | ret (out : List Nat) (st : AppState)
  | get (buflen : Nat) (k : List Nat → Scrub)

/-- What the module takes from the rest of the assembler. -/
structure Config where
  line_comment_chars : List Nat
  is_end_of_line : Nat → Bool
  multibyte_warn : Bool
  scan_for_multibyte_characters : List Nat → List Diag
  do_scrub_chars : AppState → Nat → Bool → Scrub

/-! ## Module state -/

/-- The `struct saved_file` a push allocates. -/
structure saved_file where
  f_in : Option Nat
  file_name : Option String
  preprocess : Int
  app_save : Option AppState
  deriving DecidableEq

/-- The static data of the module together with the part of the process
state it touches. -/
structure World where
  f_in : Option Nat
  file_name : Option String
  preprocess : Int
  streams : Nat → Option FILE
  next_handle : Nat
  fs : String → Option FILE
  app : AppState
  diags : List Diag

/-- The handle of `stdin`. -/
def stdin : Nat := 0

/-- The constant `BUFFER_SIZE` (line 40). -/
def BUFFER_SIZE : Nat := 32 * 1024

/-- The call `fopen (filename, FOPEN_RT)`: a fresh handle on success, `NULL`
otherwise. -/
def fopen (filename : String) (w : World) : Option Nat × World :=
  match w.fs filename with
  | none => (none, w)
  | some f =>
    (some w.next_handle,
      { w with streams := Function.update w.streams w.next_handle (some f),
               next_handle := w.next_handle + 1 })

/-- The call `fclose (h)`: whether it failed, and the world without the stream. -/
def fclose (h : Nat) (w : World) : Option (Bool × World) :=
  match w.streams h with
  | none => none
  | some f => some (f.close_fails, { w with streams := Function.update w.streams h none })

/-- Store the new state of stream `h`. -/
def set_stream (h : Nat) (f : FILE) (w : World) : World :=
  { w with streams := Function.update w.streams h (some f) }

/-- Append a report to the diagnostic log. -/
def report (d : Diag) (w : World) : World :=
  { w with diags := w.diags ++ [d] }

/-- Modelled from the spec: `app_push` of the scrubber (app.c), which
captures the scrubber-internal state and starts afresh. -/
def app_push (w : World) : AppState × World :=
  (w.app, { w with app := 0 })

/-- Modelled from the spec: `app_pop` of the scrubber (app.c), which
restores the captured scrubber-internal state. -/
def app_pop (saved : Option AppState) (w : World) : World :=
  match saved with
  | none => w
  | some st => { w with app := st }

/-! ## The module -/

/-- The function `input_file_begin` (lines 58-62). -/
def input_file_begin (w : World) : World :=
  { w with f_in := none }

/-- The function `input_file_end` (lines 64-67), an empty hook. -/
def input_file_end (w : World) : World := w

/-- The function `input_file_buffer_size` (lines 70-74). -/
def input_file_buffer_size : Nat := BUFFER_SIZE

/-- The function `input_file_push` (lines 79-96); the token is the saved
record itself. -/
def input_file_push (w : World) : saved_file × World :=
  let r : Option AppState × World :=
    if w.preprocess ≠ 0 then ((app_push w).1 |> some, (app_push w).2) else (none, w)
  ({ f_in := w.f_in, file_name := w.file_name, preprocess := w.preprocess,
     app_save := r.1 },
   input_file_begin r.2)

/-- The function `input_file_pop` (lines 98-112). -/
def input_file_pop (saved : saved_file) (w : World) : World :=
  let w := input_file_end w
  let w := { w with f_in := saved.f_in, file_name := saved.file_name,
                    preprocess := saved.preprocess }
  if w.preprocess ≠ 0 then app_pop saved.app_save w else w

/-- The test of lines 172-174: is `c` the character that starts the
sniffing of a directive? -/
def is_trigger (cfg : Config) (c : Nat) : Bool :=
  if cfg.line_comment_chars.contains 35 then c == 35
  else c != 0 && cfg.line_comment_chars.contains c

/-- Lines 184-193 and 198-207: read the rest of the line after the second
character, set `preprocess` to `value` when the line is `word` followed by
end of line, and push back the newline or the leading character. -/
def sniff_line (cfg : Config) (word : List Nat) (value : Int) (lead : Nat)
    (pf : Int × FILE) : Int × FILE :=
  let r := fgets 80 pf.2
  let preprocess :=
    match r.1 with
    | some p =>
      if startswith p word && cfg.is_end_of_line (char_at p word.length) then value
      else pf.1
    | none => pf.1
  let back :=
    match r.1 with
    | some p => if !strchr p 10 then lead else 10
    | none => lead
  (preprocess, ungetc back r.2)

/-- Lines 172-218: the look at the first line, on a stream whose first
character `c` has been read. -/
def sniff (cfg : Config) (c : Nat) (pf : Int × FILE) : Int × FILE :=
  if is_trigger cfg c then
    let lead := c
    let r := getc pf.2
    if r.1 = some 78 then
      sniff_line cfg [79, 95, 65, 80, 80] 0 lead (pf.1, r.2)
    else if r.1 = some 65 then
      sniff_line cfg [80, 80] 1 lead (pf.1, r.2)
    else if r.1 = some 10 then
      (pf.1, ungetc 10 r.2)
    else
      (pf.1, ungetc lead r.2)
  else
    (pf.1, ungetc c pf.2)

/-- Lines 127-139: select the stream and the display name. -/
def open_raw (filename : String) (w : World) : World :=
  if filename ≠ "" then
    let r := fopen filename w
    { r.2 with f_in := r.1, file_name := some filename }
  else
    { w with f_in := some stdin, file_name := some "\x7bstandard input\x7d" }

/-- The function `input_file_open` (lines 116-219). -/
def input_file_open (cfg : Config) (filename : String) (pre : Int) (w : World) :
    Option World :=
  let w := { w with preprocess := pre }
  let w := open_raw filename w
  match w.f_in with
  | none => some (report (Diag.bad_open w.file_name) w)
  | some h =>
    match w.streams h with
    | none => none
    | some f =>
      let r := getc f
      let w := set_stream h r.2 w
      if r.2.err then
        let w := report (Diag.bad_read w.file_name) w
        match fclose h w with
        | none => none
        | some cw => some { cw.2 with f_in := none }
      else if r.2.eof then
        match fclose h w with
        | none => none
        | some cw => some { cw.2 with f_in := none }
      else
        match r.1 with
        | none => none
        | some c =>
          let s := sniff cfg c (w.preprocess, r.2)
          some (set_stream h s.2 { w with preprocess := s.1 })

/-- The function `input_file_close` (lines 223-231). -/
def input_file_close (w : World) : Option World :=
  match w.f_in with
  | none => some { w with f_in := none }
  | some h =>
    match fclose h w with
    | none => none
    | some cw => some { cw.2 with f_in := none }

/-- The function `input_file_get` (lines 235-247): the callback handed to the scrubber, also the raw
reader. -/
def input_file_get (buflen : Nat) (w : World) : Option (List Nat × World) :=
  match w.f_in with
  | none => none
  | some h =>
    match w.streams h with
    | none => none
    | some f =>
      if f.eof then some ([], w)
      else
        let r := fread buflen f
        let w := set_stream h r.2 w
        let w := if r.2.err then report (Diag.bad_read w.file_name) w else w
        some (r.1, w)

/-- Run `do_scrub_chars` with `input_file_get` as its supplier. -/
def run_scrub : Scrub → World → Option (List Nat × World)
  | Scrub.ret out st, w => some (out, { w with app := st })
  | Scrub.get buflen k, w =>
    match input_file_get buflen w with
    | none => none
    | some r => run_scrub (k r.1) r.2

/-- Lines 263-277: fill the buffer, through the scrubber or raw. -/
def fill_buffer (cfg : Config) (w : World) : Option (List Nat × World) :=
  if w.preprocess ≠ 0 then
    run_scrub (cfg.do_scrub_chars w.app BUFFER_SIZE cfg.multibyte_warn) w
  else
    match input_file_get BUFFER_SIZE w with
    | none => none
    | some r =>
      if cfg.multibyte_warn then
        some (r.1, { r.2 with diags := r.2.diags ++ cfg.scan_for_multibyte_characters r.1 })
      else some r

/-- The function `input_file_give_next_buffer` (lines 251-291): `none` for a null result, otherwise the
bytes stored at `where` (the result is `where` plus their number). -/
def input_file_give_next_buffer (cfg : Config) (w : World) :
    Option (Option (List Nat) × World) :=
  match w.f_in with
  | none => some (none, w)
  | some _ =>
    match fill_buffer cfg w with
    | none => none
    | some r =>
      if r.1.length ≠ 0 then some (some r.1, r.2)
      else
        match r.2.f_in with
        | none => none
        | some h =>
          match fclose h r.2 with
          | none => none
          | some cw =>
            let w := if cw.1 then report (Diag.warn_close cw.2.file_name) cw.2 else cw.2
            some (none, { w with f_in := none })

/-! ## Notions used to state the properties -/

/-- The raw open of `filename` in `w` selects handle `h`, whose stream is
`f` before anything is read from it. -/
def opens_stream (filename : String) (w : World) (h : Nat) (f : FILE) : Prop :=
  (open_raw filename w).f_in = some h ∧ (open_raw filename w).streams h = some f

/-- A stream that delivers exactly the bytes `bs`, without read errors. -/
def bytes (bs : List Nat) : List Ev := bs.map Ev.byte

/-- The text `#NO_APP` and a newline. -/
def NO_APP_line : List Nat := [35, 78, 79, 95, 65, 80, 80, 10]

/-- The text `#APP` and a newline. -/
def APP_line : List Nat := [35, 65, 80, 80, 10]

/-- Successive `input_file_give_next_buffer` calls up to the first one that
returns 0, at most `fuel` calls: the concatenation of the buffers delivered
and the final state; `none` when `fuel` calls did not reach a 0 result. -/
def read_all (cfg : Config) : Nat → World → Option (List Nat × World)
  | 0, _ => none
  | fuel + 1, w =>
    match input_file_give_next_buffer cfg w with
    | none => none
    | some (none, w1) => some ([], w1)
    | some (some bs, w1) =>
      match read_all cfg fuel w1 with
      | none => none
      | some r => some (bs ++ r.1, r.2)

/-- The result of the call number `n + 1` in a run of successive
`input_file_give_next_buffer` calls started in `w`. -/
def nth_buffer (cfg : Config) : Nat → World → Option (Option (List Nat) × World)
  | 0, w => input_file_give_next_buffer cfg w
  | n + 1, w =>
    match input_file_give_next_buffer cfg w with
    | none => none
    | some r => nth_buffer cfg n r.2

/-- The bytes at the head of a stream, before its first read error or its
end. -/
def leading_bytes : List Ev → List Nat
  | Ev.byte b :: rest => b :: leading_bytes rest
  | _ => []

/-- The bytes of `bs` up to and including its first newline, all of `bs`
when it has none. -/
def upto_newline : List Nat → List Nat
  | [] => []
  | b :: rest => if b = 10 then [b] else b :: upto_newline rest

/-- The bytes that reading a line of up to `n` bytes takes from a stream. -/
def line_bytes (n : Nat) (evs : List Ev) : List Nat :=
  upto_newline ((leading_bytes evs).take n)

/-- Following the spec (4.2, step 3): the attempt to read up to `n` further
bytes as one line.  The line is there when a newline was found or `n` bytes
were taken, and also when the stream ended after at least one byte; a read
error before that, or a stream that ends at once, gives no line. -/
def line_read (n : Nat) (evs : List Ev) : Option (List Nat) :=
  if (line_bytes n evs).contains 10 || (line_bytes n evs).length == n then
    some (line_bytes n evs)
  else if (evs.drop (line_bytes n evs).length).isEmpty && !(line_bytes n evs).isEmpty then
    some (line_bytes n evs)
  else none

/-- Following the spec (4.2, step 3): the line begins with `word`
immediately followed by end-of-line; where the line stops right after
`word`, the end-of-line predicate is asked about NUL. -/
def directive_line (cfg : Config) (word : List Nat) (line : Option (List Nat)) : Bool :=
  match line with
  | none => false
  | some l => word.isPrefixOf l && cfg.is_end_of_line (l.getD word.length 0)

/-- The text `O_APP`. -/
def O_APP : List Nat := [79, 95, 65, 80, 80]

/-- The text `PP`. -/
def PP : List Nat := [80, 80]

/-- Following the spec (4.2, steps 2 and 3): the flag after sniffing a stream
for a given hint: 0 for trigger, `N` and a line `O_APP`, 1 for trigger, `A`
and a line `PP`, the hint otherwise. -/
def sniffed_flag (cfg : Config) (hint : Int) (evs : List Ev) : Int :=
  match evs with
  | Ev.byte c :: Ev.byte c2 :: rest =>
    if is_trigger cfg c && c2 == 78 && directive_line cfg O_APP (line_read 79 rest) then 0
    else if is_trigger cfg c && c2 == 65 && directive_line cfg PP (line_read 79 rest) then 1
    else hint
  | _ => hint

/-- The text `NO_APP`, the directive after the trigger byte. -/
def NO_APP_word : List Nat := [78, 79, 95, 65, 80, 80]

/-- The text `APP`, the directive after the trigger byte. -/
def APP_word : List Nat := [65, 80, 80]

/-- The stream begins with the byte `c` and the text `word`, immediately
followed by end-of-line: a byte that the end-of-line predicate accepts, or
the end of the stream where the predicate accepts NUL. -/
def begins_with (cfg : Config) (c : Nat) (word : List Nat) (evs : List Ev) : Prop :=
  ∃ tail, evs = bytes (c :: word) ++ tail ∧
    ((tail = [] ∧ cfg.is_end_of_line 0 = true) ∨
      ∃ b t, tail = Ev.byte b :: t ∧ cfg.is_end_of_line b = true)

/-- One call of the interface; `pop i` hands back the token at position `i`
among the tokens of pushes not yet popped. -/
inductive Op where
  | open_file (filename : String) (pre : Int)
  | close
  | next
  | push
  | pop (i : Nat)

/-- The module state together with the tokens that pushes have returned and
that no pop has consumed yet, latest first. -/
structure Session where
  w : World
  saved : List saved_file

/-- The effect of one call; `none` when the call is not defined (see the
operations) or the token does not exist. -/
def step (cfg : Config) (op : Op) (s : Session) : Option Session :=
  match op with
  | Op.open_file filename pre =>
    (input_file_open cfg filename pre s.w).map fun w1 => { s with w := w1 }
  | Op.close => (input_file_close s.w).map fun w1 => { s with w := w1 }
  | Op.next => (input_file_give_next_buffer cfg s.w).map fun r => { s with w := r.2 }
  | Op.push =>
    some { w := (input_file_push s.w).2, saved := (input_file_push s.w).1 :: s.saved }
  | Op.pop i =>
    (s.saved.get? i).map fun t => { w := input_file_pop t s.w, saved := s.saved.eraseIdx i }

/-- A sequence of calls, each applied to the state the previous one left. -/
def run (cfg : Config) : List Op → Session → Option Session
  | [], s => some s
  | op :: ops, s =>
    match step cfg op s with
    | none => none
    | some s1 => run cfg ops s1

/-- When a file is open, the display name is there and is not empty. -/
def named (f_in : Option Nat) (file_name : Option String) : Prop :=
  f_in ≠ none → ∃ n, file_name = some n ∧ n ≠ ""

/-- The live session and every saved token have a display name when they
have a file. -/
def session_named (s : Session) : Prop :=
  named s.w.f_in s.w.file_name ∧ ∀ t ∈ s.saved, named t.f_in t.file_name

/-- The number of newline bytes still to be read from a stream. -/
def newlines (evs : List Ev) : Nat :=
  evs.count (Ev.byte 10)

/-! ## Sample inputs -/

/-- A scrubber that asks its supplier once and passes the bytes through. -/
def scrub_once : AppState → Nat → Bool → Scrub :=
  fun st buflen _ => Scrub.get buflen (fun bs => Scrub.ret bs st)

/-- A configuration whose only line-comment character is `#` and whose end
of line is newline, carriage return or NUL. -/
def cfg_hash : Config :=
  { line_comment_chars := [35]
    is_end_of_line := fun c => c == 10 || c == 13 || c == 0
    multibyte_warn := false
    scan_for_multibyte_characters := fun _ => []
    do_scrub_chars := scrub_once }

/-- A configuration whose only line-comment character is `!`. -/
def cfg_bang : Config :=
  { cfg_hash with line_comment_chars := [33] }

/-- A fresh stream over the bytes `bs`. -/
def fresh (bs : List Nat) : FILE :=
  { content := bytes bs, eof := false, err := false, close_fails := false }

/-- A process in which nothing is open but an empty `stdin`, and whose file
system holds one file `name` with the bytes `bs`. -/
def world_with (name : String) (bs : List Nat) : World :=
  { f_in := none
    file_name := none
    preprocess := 0
    streams := fun h => if h = stdin then some (fresh []) else none
    next_handle := 1
    fs := fun n => if n = name then some (fresh bs) else none
    app := 0
    diags := [] }

/-- A process in which nothing is open but an empty `stdin`, and whose file
system holds one file `name` that opens as the stream `f`. -/
def world_file (name : String) (f : FILE) : World :=
  { f_in := none
    file_name := none
    preprocess := 0
    streams := fun h => if h = stdin then some (fresh []) else none
    next_handle := 1
    fs := fun n => if n = name then some f else none
    app := 0
    diags := [] }

/-- A stream whose first read fails. -/
def failing : FILE := { fresh [] with content := [Ev.fail] }

/-- A stream that delivers the bytes `bs`, then a read error, then the bytes
`more`. -/
def failing_after (bs more : List Nat) : FILE :=
  { fresh [] with content := bytes bs ++ Ev.fail :: bytes more }

/-- A process reading the file `name` on handle 1, whose stream is in state
`f`, with preprocessing off. -/
def world_reading (name : String) (f : FILE) : World :=
  { f_in := some 1
    file_name := some name
    preprocess := 0
    streams := fun h =>
      if h = stdin then some (fresh [])
      else if h = 1 then some f
      else none
    next_handle := 2
    fs := fun _ => none
    app := 0
    diags := [] }

/-- A stream all of whose bytes have been delivered. -/
def at_end : FILE := { fresh [] with eof := true }

/-! ## Facts about the stdio model -/

theorem getc_byte (f : FILE) (b : Nat) (rest : List Ev)
    (hf : f.eof = false) (hc : f.content = Ev.byte b :: rest) :
    getc f = (some b, { f with content := rest }) := by
  simp [getc, hf, hc]

theorem ungetc_eof (b : Nat) (f : FILE) : (ungetc b f).eof = false := rfl

theorem ungetc_getc (f : FILE) (b : Nat) (rest : List Ev)
    (hf : f.eof = false) (hc : f.content = Ev.byte b :: rest) :
    ungetc b { f with content := rest } = f := by
  cases f
  simp_all [ungetc]

theorem fgets_loop_byte (n : Nat) (acc : List Nat) (f : FILE) (b : Nat) (rest : List Ev)
    (hf : f.eof = false) (hc : f.content = Ev.byte b :: rest) :
    fgets_loop (n + 1) acc f =
      if b = 10 then (some (acc ++ [b]), { f with content := rest })
      else fgets_loop n (acc ++ [b]) { f with content := rest } := by
  simp [fgets_loop, hf, hc]

theorem fread_bytes (n : Nat) (bs : List Nat) (f : FILE)
    (hf : f.eof = false) (hc : f.content = bytes bs) :
    fread n f =
      (bs.take n, { f with content := bytes (bs.drop n), eof := decide (bs.length < n) }) := by
  induction n generalizing bs f with
  | zero =>
    cases f
    simp_all [fread, bytes]
  | succ n ih =>
    cases bs with
    | nil =>
      simp only [bytes, List.map_nil] at hc
      simp [fread, hf, hc, bytes]
    | cons b bs =>
      simp only [bytes, List.map_cons] at hc
      have h2 := ih bs { f with content := bytes bs } hf rfl
      simp only [bytes, hf] at h2
      simp [fread, hf, hc, h2, bytes, List.map_drop]

/-! ## Facts about `input_file_open` -/

theorem sniff_line_eof (cfg : Config) (word : List Nat) (value : Int) (lead : Nat)
    (pf : Int × FILE) : (sniff_line cfg word value lead pf).2.eof = false := rfl

theorem sniff_eof (cfg : Config) (c : Nat) (pf : Int × FILE) :
    (sniff cfg c pf).2.eof = false := by
  unfold sniff
  dsimp only
  split_ifs
  · exact sniff_line_eof _ _ _ _ _
  · exact sniff_line_eof _ _ _ _ _
  · rfl
  · rfl
  · rfl

theorem open_raw_preprocess (filename : String) (pre : Int) (w : World) :
    open_raw filename { w with preprocess := pre } =
      { open_raw filename w with preprocess := pre } := by
  by_cases hn : filename = ""
  · simp [open_raw, hn]
  · cases hfs : w.fs filename <;> simp [open_raw, fopen, hn, hfs]

theorem open_raw_diags (filename : String) (w : World) :
    (open_raw filename w).diags = w.diags := by
  by_cases hn : filename = ""
  · simp [open_raw, hn]
  · cases hfs : w.fs filename <;> simp [open_raw, fopen, hn, hfs]

/-- What `input_file_open` does on a stream whose first byte can be read. -/
theorem open_first_byte (cfg : Config) (filename : String) (pre : Int) (w : World)
    (h : Nat) (f : FILE) (c : Nat) (rest : List Ev)
    (ho : opens_stream filename w h f)
    (hf : f.eof = false) (he : f.err = false) (hc : f.content = Ev.byte c :: rest) :
    ∃ w1, input_file_open cfg filename pre w = some w1 ∧
      w1.f_in = some h ∧
      w1.preprocess = (sniff cfg c (pre, { f with content := rest })).1 ∧
      w1.streams h = some (sniff cfg c (pre, { f with content := rest })).2 ∧
      w1.diags = w.diags ∧
      w1.file_name = (open_raw filename w).file_name := by
  obtain ⟨h1, h2⟩ := ho
  simp only [input_file_open, open_raw_preprocess, h1, h2, getc_byte f c rest hf hc, he, hf]
  simp [set_stream, h1, open_raw_diags]

/-! ## Facts about raw reading -/

theorem input_file_get_bytes (n : Nat) (bs : List Nat) (w : World) (h : Nat) (f : FILE)
    (hin : w.f_in = some h) (hs : w.streams h = some f)
    (hf : f.eof = false) (hc : f.content = bytes bs) :
    ∃ w1, input_file_get n w = some (bs.take n, w1) ∧ w1.f_in = some h ∧
      w1.preprocess = w.preprocess ∧
      w1.streams h =
        some { f with content := bytes (bs.drop n), eof := decide (bs.length < n) } := by
  simp only [input_file_get, hin, hs, hf, fread_bytes n bs f hf hc]
  cases he : f.err <;> simp [set_stream, report, hin]

theorem input_file_get_end (n : Nat) (w : World) (h : Nat) (f : FILE)
    (hin : w.f_in = some h) (hs : w.streams h = some f)
    (hc : f.content = []) :
    ∃ w1, input_file_get n w = some ([], w1) ∧ w1.f_in = some h ∧
      w1.preprocess = w.preprocess ∧ (w1.streams h).isSome = true := by
  cases hf : f.eof
  · have hr := fread_bytes n [] f hf (by simpa [bytes] using hc)
    simp only [input_file_get, hin, hs, hf, hr]
    cases he : f.err <;> simp [set_stream, report, hin]
  · simp [input_file_get, hin, hs, hf]

theorem give_next_buffer_bytes (cfg : Config) (bs : List Nat) (w : World) (h : Nat) (f : FILE)
    (hin : w.f_in = some h) (hp : w.preprocess = 0) (hs : w.streams h = some f)
    (hf : f.eof = false) (hc : f.content = bytes bs) (hne : bs ≠ []) :
    ∃ w1, input_file_give_next_buffer cfg w = some (some (bs.take BUFFER_SIZE), w1) ∧
      w1.f_in = some h ∧ w1.preprocess = 0 ∧
      w1.streams h =
        some { f with content := bytes (bs.drop BUFFER_SIZE),
                      eof := decide (bs.length < BUFFER_SIZE) } := by
  obtain ⟨w1, h1, h2, h3, h4⟩ := input_file_get_bytes BUFFER_SIZE bs w h f hin hs hf hc
  have hlen : (bs.take BUFFER_SIZE).length ≠ 0 := by
    cases bs with
    | nil => exact absurd rfl hne
    | cons b bs => simp [BUFFER_SIZE]
  cases hm : cfg.multibyte_warn
  · refine ⟨w1, ?_, h2, h3.trans hp, h4⟩
    simp only [input_file_give_next_buffer, hin, fill_buffer, hp, h1, hm]
    simp only [ne_eq, not_true_eq_false, if_false, Bool.false_eq_true]
    rw [if_pos hlen]
  · refine ⟨{ w1 with diags := w1.diags ++
        cfg.scan_for_multibyte_characters (bs.take BUFFER_SIZE) }, ?_, h2, h3.trans hp, h4⟩
    simp only [input_file_give_next_buffer, hin, fill_buffer, hp, h1, hm]
    simp only [ne_eq, not_true_eq_false, if_false, if_true]
    rw [if_pos hlen]

theorem give_next_buffer_end (cfg : Config) (w : World) (h : Nat) (f : FILE)
    (hin : w.f_in = some h) (hp : w.preprocess = 0) (hs : w.streams h = some f)
    (hc : f.content = []) :
    ∃ w1, input_file_give_next_buffer cfg w = some (none, w1) ∧ w1.f_in = none := by
  obtain ⟨w1, h1, h2, h3, h4⟩ := input_file_get_end BUFFER_SIZE w h f hin hs hc
  obtain ⟨g, hg⟩ := Option.isSome_iff_exists.mp h4
  cases hm : cfg.multibyte_warn <;>
    simp [input_file_give_next_buffer, hin, fill_buffer, hp, h1, hm, h2, fclose, hg]

/-! ## Facts about the state after `input_file_open` and about draining it -/

theorem sniff_not_trigger (cfg : Config) (c : Nat) (pf : Int × FILE)
    (ht : is_trigger cfg c = false) : sniff cfg c pf = (pf.1, ungetc c pf.2) := by
  simp [sniff, ht]

theorem open_stream_not_eof (cfg : Config) (filename : String) (pre : Int) (w w1 : World)
    (h : Nat) (f : FILE) (ho : input_file_open cfg filename pre w = some w1)
    (hin : w1.f_in = some h) (hs : w1.streams h = some f) : f.eof = false := by
  unfold input_file_open at ho
  simp only at ho
  split at ho
  · rename_i hnone
    cases ho
    simp [report, hnone] at hin
  · rename_i h0 hsome
    split at ho
    · cases ho
    · split_ifs at ho
      · split at ho
        · cases ho
        · cases ho
          simp at hin
      · split at ho
        · cases ho
        · cases ho
          simp at hin
      · split at ho
        · cases ho
        · cases ho
          simp only [set_stream, hsome] at hin hs
          cases hin
          simp only [Function.update_same, Option.some.injEq] at hs
          rw [← hs]
          exact sniff_eof _ _ _

theorem read_all_bytes (cfg : Config) :
    ∀ (m : Nat) (bs : List Nat) (w : World) (h : Nat) (f : FILE),
      bs.length < m → w.f_in = some h → w.preprocess = 0 → w.streams h = some f →
      f.content = bytes bs → (f.eof = true → bs = []) →
      ∃ w2, read_all cfg m w = some (bs, w2) ∧ w2.f_in = none := by
  intro m
  induction m with
  | zero => intro bs w h f hlt; exact absurd hlt (Nat.not_lt_zero _)
  | succ m ih =>
    intro bs w h f hlt hin hp hs hc he
    by_cases hb : bs = []
    · subst hb
      obtain ⟨w1, h1, h2⟩ := give_next_buffer_end cfg w h f hin hp hs (by simpa [bytes] using hc)
      exact ⟨w1, by simp [read_all, h1], h2⟩
    · have hf : f.eof = false := by
        cases hf : f.eof
        · rfl
        · exact absurd (he hf) hb
      obtain ⟨w1, h1, h2, h3, h4⟩ := give_next_buffer_bytes cfg bs w h f hin hp hs hf hc hb
      have hpos : 0 < bs.length := List.length_pos.mpr hb
      obtain ⟨w2, h5, h6⟩ := ih (bs.drop BUFFER_SIZE) w1 h _ (by
          simp only [List.length_drop, BUFFER_SIZE]; omega) h2 h3 h4 rfl (by
          intro hlt2
          simp only [decide_eq_true_eq] at hlt2
          exact List.drop_eq_nil_of_le (Nat.le_of_lt hlt2))
      exact ⟨w2, by simp [read_all, h1, h5], h6⟩

theorem fgets_loop_drop (n : Nat) : ∀ (acc : List Nat) (f : FILE),
    ∃ k, (fgets_loop n acc f).2.content = f.content.drop k := by
  induction n with
  | zero => intro acc f; exact ⟨0, rfl⟩
  | succ n ih =>
    intro acc f
    cases hf : f.eof
    · cases hc : f.content with
      | nil => exact ⟨0, by simp [fgets_loop, hf, hc]⟩
      | cons e rest =>
        cases e with
        | fail => exact ⟨1, by simp [fgets_loop, hf, hc]⟩
        | byte b =>
          by_cases hb : b = 10
          · exact ⟨1, by simp [fgets_loop, hf, hc, hb]⟩
          · obtain ⟨k, hk⟩ := ih (acc ++ [b]) { f with content := rest }
            exact ⟨k + 1, by simpa [fgets_loop, hf, hc, hb] using hk⟩
    · exact ⟨0, by simp [fgets_loop, hf]⟩

theorem getc_drop (f : FILE) : ∃ k, (getc f).2.content = f.content.drop k := by
  cases hf : f.eof
  · cases hc : f.content with
    | nil => exact ⟨0, by simp [getc, hf, hc]⟩
    | cons e rest =>
      cases e with
      | fail => exact ⟨1, by simp [getc, hf, hc]⟩
      | byte b => exact ⟨1, by simp [getc, hf, hc]⟩
  · exact ⟨0, by simp [getc, hf]⟩

theorem sniff_line_drop (cfg : Config) (word : List Nat) (value : Int) (lead : Nat)
    (pf : Int × FILE) :
    ∃ c k, (sniff_line cfg word value lead pf).2.content = Ev.byte c :: pf.2.content.drop k := by
  obtain ⟨k, hk⟩ := fgets_loop_drop (80 - 1) [] pf.2
  exact ⟨_, k, by simp only [sniff_line, fgets, ungetc, hk]; rfl⟩

theorem sniff_drop (cfg : Config) (c : Nat) (pf : Int × FILE) :
    ∃ c1 k, (sniff cfg c pf).2.content = Ev.byte c1 :: pf.2.content.drop k := by
  obtain ⟨j, hj⟩ := getc_drop pf.2
  unfold sniff
  dsimp only
  split_ifs
  · obtain ⟨c1, k, hk⟩ := sniff_line_drop cfg [79, 95, 65, 80, 80] 0 c (pf.1, (getc pf.2).2)
    exact ⟨c1, j + k, by rw [hk]; simp only [hj, List.drop_drop]⟩
  · obtain ⟨c1, k, hk⟩ := sniff_line_drop cfg [80, 80] 1 c (pf.1, (getc pf.2).2)
    exact ⟨c1, j + k, by rw [hk]; simp only [hj, List.drop_drop]⟩
  · exact ⟨10, j, by simp only [ungetc, hj]⟩
  · exact ⟨c, j, by simp only [ungetc, hj]⟩
  · exact ⟨c, 0, by simp only [ungetc, List.drop_zero]⟩

/-- Inversion of a successful open that leaves a file open. -/
theorem open_inv (cfg : Config) (filename : String) (pre : Int) (w w1 : World)
    (h h0 : Nat) (f0 : FILE)
    (ho : input_file_open cfg filename pre w = some w1) (hin : w1.f_in = some h)
    (hr : opens_stream filename w h0 f0) :
    h = h0 ∧ ∃ c rest, f0.eof = false ∧ f0.err = false ∧ f0.content = Ev.byte c :: rest ∧
      w1.preprocess = (sniff cfg c (pre, { f0 with content := rest })).1 ∧
      w1.streams h = some (sniff cfg c (pre, { f0 with content := rest })).2 := by
  obtain ⟨r1, r2⟩ := hr
  simp only [input_file_open, open_raw_preprocess, r1, r2] at ho
  cases hf : f0.eof
  · cases hc : f0.content with
    | nil =>
      simp [getc, hf, hc, fclose, set_stream, report] at ho
      split_ifs at ho <;> (cases ho; simp at hin)
    | cons e rest =>
      cases e with
      | fail =>
        simp [getc, hf, hc, fclose, set_stream, report] at ho
        cases ho; simp at hin
      | byte b =>
        cases he : f0.err
        · simp [getc, hf, hc, he, set_stream] at ho
          cases ho
          simp only [r1, Option.some.injEq] at hin
          subst hin
          exact ⟨rfl, b, rest, rfl, rfl, rfl, rfl, by simp⟩
        · simp [getc, hf, hc, he, fclose, set_stream, report] at ho
          cases ho; simp at hin
  · simp [getc, hf, fclose, set_stream, report] at ho
    split_ifs at ho <;> (cases ho; simp at hin)

theorem give_next_buffer_closed (cfg : Config) (w : World) (hin : w.f_in = none) :
    input_file_give_next_buffer cfg w = some (none, w) := by
  simp [input_file_give_next_buffer, hin]

theorem nth_buffer_closed (cfg : Config) (w : World) (hin : w.f_in = none) :
    ∀ n, nth_buffer cfg n w = some (none, w) := by
  intro n
  induction n with
  | zero => exact give_next_buffer_closed cfg w hin
  | succ n ih => simp [nth_buffer, give_next_buffer_closed cfg w hin, ih]

theorem give_next_buffer_zero (cfg : Config) (w w1 : World)
    (hr : input_file_give_next_buffer cfg w = some (none, w1)) : w1.f_in = none := by
  unfold input_file_give_next_buffer at hr
  split at hr
  · rename_i hnone
    cases hr
    exact hnone
  · split at hr
    · cases hr
    · split_ifs at hr
      · cases hr
      · split at hr
        · cases hr
        · split at hr
          · cases hr
          · cases hr
            rfl

theorem fread_length (n : Nat) : ∀ f : FILE, (fread n f).1.length ≤ n := by
  induction n with
  | zero => intro f; simp [fread]
  | succ n ih =>
    intro f
    unfold fread
    split_ifs
    · simp
    · split
      · simp
      · simp
      · simpa using ih _

theorem input_file_get_length (n : Nat) (w w1 : World) (bs : List Nat)
    (hg : input_file_get n w = some (bs, w1)) : bs.length ≤ n := by
  unfold input_file_get at hg
  split at hg
  · cases hg
  · split at hg
    · cases hg
    · split_ifs at hg
      · cases hg; simp
      · cases hg; exact fread_length n _

/-! ## Facts about the trigger test -/

/-- For a comment-character string (no NUL inside), the test of lines
172-174 says: `#` alone when `#` is a line-comment character, any
line-comment character otherwise. -/
theorem is_trigger_iff (cfg : Config) (c : Nat) (h0 : 0 ∉ cfg.line_comment_chars) :
    is_trigger cfg c = true ↔
      if 35 ∈ cfg.line_comment_chars then c = 35 else c ∈ cfg.line_comment_chars := by
  by_cases h : 35 ∈ cfg.line_comment_chars
  · simp [is_trigger, h]
  · have hc0 : c ∈ cfg.line_comment_chars → ¬ c = 0 := fun e e0 => h0 (e0 ▸ e)
    simp [is_trigger, h]
    exact hc0

/-! ## Facts about the line read by the sniffer -/

theorem fgets_loop_line (n : Nat) : ∀ (acc : List Nat) (f : FILE), f.eof = false →
    (fgets_loop n acc f).1 =
      if (line_bytes n f.content).contains 10 || (line_bytes n f.content).length == n then
        some (acc ++ line_bytes n f.content)
      else if (f.content.drop (line_bytes n f.content).length).isEmpty &&
          !(acc ++ line_bytes n f.content).isEmpty then
        some (acc ++ line_bytes n f.content)
      else none := by
  induction n with
  | zero => intro acc f _; simp [fgets_loop, line_bytes, upto_newline]
  | succ n ih =>
    intro acc f hf
    cases hc : f.content with
    | nil =>
      cases acc <;> simp [fgets_loop, hf, hc, line_bytes, leading_bytes, upto_newline]
    | cons e rest =>
      cases e with
      | fail => simp [fgets_loop, hf, hc, line_bytes, leading_bytes, upto_newline]
      | byte b =>
        by_cases hb : b = 10
        · simp [fgets_loop, hf, hc, line_bytes, leading_bytes, upto_newline, hb]
        · have h2 := ih (acc ++ [b]) { f with content := rest } hf
          have hb2 : ¬ 10 = b := fun e => hb e.symm
          simp [line_bytes, hf] at h2
          simp [fgets_loop, hf, hc, line_bytes, leading_bytes, upto_newline, hb, hb2, h2]
theorem fgets_line (f : FILE) (hf : f.eof = false) :
    (fgets 80 f).1 = line_read 79 f.content := by
  simp [fgets, fgets_loop_line 79 [] f hf, line_read]

theorem char_at_eq (p : List Nat) : ∀ i, char_at p i = p.getD i 0 := by
  induction p with
  | nil => intro i; cases i <;> simp [char_at]
  | cons b p ih =>
    intro i
    cases i with
    | zero => simp [char_at]
    | succ i => simpa [char_at] using ih i

theorem startswith_eq (word : List Nat) (hw : ∀ x ∈ word, x ≠ 0) :
    ∀ p, startswith p word = word.isPrefixOf p := by
  induction word with
  | nil => intro p; simp [startswith]
  | cons x word ih =>
    intro p
    have hx : x ≠ 0 := hw x (List.mem_cons_self _ _)
    have ih2 := ih (fun y hy => hw y (List.mem_cons_of_mem _ hy))
    cases p with
    | nil => simp [startswith, cstr]
    | cons y p =>
      have h3 := ih2 p
      simp only [startswith, cstr] at h3
      by_cases hy : y = 0
      · have hxy : ¬ x = y := fun e => hx (e.trans hy)
        simp [startswith, cstr, hy, List.isPrefixOf, hxy]
        intro e
        exact absurd e hx
      · simp [startswith, cstr, hy, List.isPrefixOf, h3]
        rw [Bool.beq_comm]

theorem sniff_line_flag (cfg : Config) (word : List Nat) (value : Int) (lead : Nat)
    (pf : Int × FILE) (hw : ∀ x ∈ word, x ≠ 0) (hf : pf.2.eof = false) :
    (sniff_line cfg word value lead pf).1 =
      if directive_line cfg word (line_read 79 pf.2.content) then value else pf.1 := by
  simp only [sniff_line, fgets_line pf.2 hf, directive_line]
  cases line_read 79 pf.2.content with
  | none => simp
  | some p => simp only [startswith_eq word hw p, char_at_eq p]

theorem sniff_flag (cfg : Config) (c : Nat) (pre : Int) (f : FILE) (hf : f.eof = false) :
    (sniff cfg c (pre, f)).1 = sniffed_flag cfg pre (Ev.byte c :: f.content) := by
  cases ht : is_trigger cfg c
  · rw [sniff_not_trigger cfg c _ ht]
    cases hc : f.content with
    | nil => simp [sniffed_flag]
    | cons e rest => cases e <;> simp [sniffed_flag, ht]
  · cases hc : f.content with
    | nil => simp [sniff, ht, getc, hf, hc, sniffed_flag]
    | cons e rest =>
      cases e with
      | fail => simp [sniff, ht, getc, hf, hc, sniffed_flag]
      | byte c2 =>
        by_cases h78 : c2 = 78
        · subst h78
          simp [sniff, ht, getc_byte f 78 rest hf hc, sniffed_flag, O_APP,
            sniff_line_flag cfg [79, 95, 65, 80, 80] 0 c (pre, { f with content := rest })
              (by decide) hf]
        · by_cases h65 : c2 = 65
          · subst h65
            simp [sniff, ht, getc_byte f 65 rest hf hc, sniffed_flag, PP,
              sniff_line_flag cfg [80, 80] 1 c (pre, { f with content := rest })
                (by decide) hf]
          · simp [sniff, ht, getc, hf, hc, sniffed_flag, h78, h65]
            split_ifs <;> rfl

theorem leading_bytes_bytes (bs : List Nat) : leading_bytes (bytes bs) = bs := by
  induction bs with
  | nil => rfl
  | cons b bs ih => simpa [bytes, leading_bytes] using ih

theorem upto_newline_of_not_mem (l : List Nat) (h : 10 ∉ l) : upto_newline l = l := by
  induction l with
  | nil => rfl
  | cons b l ih =>
    have hb : ¬ b = 10 := fun e => h (e ▸ List.mem_cons_self _ _)
    simp [upto_newline, hb, ih (fun e => h (List.mem_cons_of_mem _ e))]

theorem mem_upto_newline (l : List Nat) : 10 ∈ upto_newline l ↔ 10 ∈ l := by
  induction l with
  | nil => simp [upto_newline]
  | cons b l ih =>
    by_cases hb : b = 10
    · simp [upto_newline, hb]
    · have hb2 : ¬ 10 = b := fun e => hb e.symm
      simp [upto_newline, hb, hb2, ih]

/-- On a stream without read errors the line read is the first `n` bytes cut
after their first newline, and there is no line only at the end of the
stream. -/
theorem line_read_bytes (n : Nat) (bs : List Nat) :
    line_read n (bytes bs) =
      if bs = [] ∧ 0 < n then none else some (upto_newline (bs.take n)) := by
  by_cases hm : 10 ∈ bs.take n
  · have hne : bs ≠ [] := by rintro rfl; simp at hm
    simp [line_read, line_bytes, leading_bytes_bytes, mem_upto_newline, hm, hne]
  · have hu := upto_newline_of_not_mem _ hm
    by_cases hl : bs.length < n
    · have ht : bs.take n = bs := List.take_of_length_le (Nat.le_of_lt hl)
      rw [ht] at hu hm
      have hl2 : ¬ bs.length = n := Nat.ne_of_lt hl
      have hpos : 0 < n := Nat.lt_of_le_of_lt (Nat.zero_le _) hl
      by_cases hb : bs = []
      · subst hb
        simp [line_read, line_bytes, leading_bytes, bytes, upto_newline, hpos, Nat.ne_of_lt hpos]
      · have hd : (bytes bs).length = bs.length := by simp [bytes]
        simp [line_read, line_bytes, leading_bytes_bytes, ht, hu, hm, hl2, hb, hd]
    · have hlen : (bs.take n).length = n := by
        simp only [List.length_take]; omega
      have hne : ¬ (bs = [] ∧ 0 < n) := by
        rintro ⟨rfl, hpos⟩
        simp at hl; omega
      simp [line_read, line_bytes, leading_bytes_bytes, hu, hm, hlen, hne]

/-! ## C1: a first line `#NO_APP` or `#APP` sets the flag -/

theorem sniff_NO_APP (cfg : Config) (pre : Int) (f : FILE) (rest : List Ev)
    (hhash : 35 ∈ cfg.line_comment_chars) (heol : cfg.is_end_of_line 10 = true)
    (hf : f.eof = false) (hc : f.content = bytes [78, 79, 95, 65, 80, 80, 10] ++ rest) :
    (sniff cfg 35 (pre, f)).1 = 0 := by
  simp [sniff, is_trigger, hhash, getc, hf, hc, bytes, sniff_line, fgets, fgets_loop,
    startswith, cstr, char_at, heol]

theorem sniff_APP (cfg : Config) (pre : Int) (f : FILE) (rest : List Ev)
    (hhash : 35 ∈ cfg.line_comment_chars) (heol : cfg.is_end_of_line 10 = true)
    (hf : f.eof = false) (hc : f.content = bytes [65, 80, 80, 10] ++ rest) :
    (sniff cfg 35 (pre, f)).1 = 1 := by
  simp [sniff, is_trigger, hhash, getc, hf, hc, bytes, sniff_line, fgets, fgets_loop,
    startswith, cstr, char_at, heol]

/-- C1 (amended): when `#` is one of the line-comment characters and the
end-of-line predicate accepts newline, opening a stream whose first line is
exactly `#NO_APP` leaves `preprocess` 0 whatever the hint, and opening a
stream whose first line is exactly `#APP` leaves `preprocess` 1 whatever the
hint. -/
theorem C1_first_line_directive (cfg : Config) (filename : String) (pre : Int) (w : World)
    (h : Nat) (f : FILE) (rest : List Ev)
    (hhash : 35 ∈ cfg.line_comment_chars) (heol : cfg.is_end_of_line 10 = true)
    (ho : opens_stream filename w h f) (hf : f.eof = false) (he : f.err = false) :
    (f.content = bytes NO_APP_line ++ rest →
      ∃ w1, input_file_open cfg filename pre w = some w1 ∧ w1.preprocess = 0) ∧
    (f.content = bytes APP_line ++ rest →
      ∃ w1, input_file_open cfg filename pre w = some w1 ∧ w1.preprocess = 1) := by
  constructor
  · intro hc
    obtain ⟨w1, h1, -, h3, -⟩ :=
      open_first_byte cfg filename pre w h f 35
        (bytes [78, 79, 95, 65, 80, 80, 10] ++ rest) ho hf he (by simpa [bytes, NO_APP_line] using hc)
    exact ⟨w1, h1, h3.trans (sniff_NO_APP cfg pre _ rest hhash heol hf rfl)⟩
  · intro hc
    obtain ⟨w1, h1, -, h3, -⟩ :=
      open_first_byte cfg filename pre w h f 35
        (bytes [65, 80, 80, 10] ++ rest) ho hf he (by simpa [bytes, APP_line] using hc)
    exact ⟨w1, h1, h3.trans (sniff_APP cfg pre _ rest hhash heol hf rfl)⟩

/-- C1 at a concrete input: with `#` the comment character, the file
`#NO_APP` opened with hint 1 ends with `preprocess` 0. -/
theorem C1_first_line_directive_witness :
    opens_stream "a.s" (world_with "a.s" NO_APP_line) 1 (fresh NO_APP_line) ∧
    ∃ w1, input_file_open cfg_hash "a.s" 1 (world_with "a.s" NO_APP_line) = some w1 ∧
      w1.preprocess = 0 :=
  ⟨⟨rfl, rfl⟩,
   (C1_first_line_directive cfg_hash "a.s" 1 (world_with "a.s" NO_APP_line) 1
      (fresh NO_APP_line) [] (by decide) rfl ⟨rfl, rfl⟩ rfl rfl).1 (by decide)⟩

/-- C1 as stated fails when `#` is not a line-comment character: with `!`
the only one, the file `#NO_APP` opened with hint 1 keeps `preprocess` 1. -/
theorem C1_counterexample :
    opens_stream "a.s" (world_with "a.s" NO_APP_line) 1 (fresh NO_APP_line) ∧
    (input_file_open cfg_bang "a.s" 1 (world_with "a.s" NO_APP_line)).map
      (fun w1 => w1.preprocess) = some 1 :=
  ⟨⟨rfl, rfl⟩, by decide⟩

/-! ## C2: a first byte that is no trigger leaves the stream untouched -/

/-- C2: when the first byte is not the comment trigger, `input_file_open`
leaves the stream exactly as the raw open delivered it (no lookahead is
consumed, whatever the hint), and with preprocessing off the first
`input_file_give_next_buffer` call returns the first
`min (length, BUFFER_SIZE)` bytes of the file unchanged. -/
theorem C2_sniff_preserves_content (cfg : Config) (filename : String) (pre : Int)
    (w : World) (h : Nat) (f : FILE) (b : Nat) (bs : List Nat)
    (ho : opens_stream filename w h f) (hf : f.eof = false) (he : f.err = false)
    (hc : f.content = bytes (b :: bs)) (ht : is_trigger cfg b = false) :
    ∃ w1, input_file_open cfg filename pre w = some w1 ∧
      w1.f_in = some h ∧ w1.streams h = some f ∧ w1.preprocess = pre ∧
      (pre = 0 → ∃ w2, input_file_give_next_buffer cfg w1 =
        some (some ((b :: bs).take BUFFER_SIZE), w2)) := by
  obtain ⟨w1, h1, h2, h3, h4, -⟩ :=
    open_first_byte cfg filename pre w h f b (bytes bs) ho hf he hc
  rw [sniff_not_trigger cfg b _ ht] at h3 h4
  simp only [ungetc_getc f b (bytes bs) hf hc] at h4
  refine ⟨w1, h1, h2, h4, h3, ?_⟩
  intro hp
  obtain ⟨w2, h5, -⟩ :=
    give_next_buffer_bytes cfg (b :: bs) w1 h f h2 (h3.trans hp) h4 hf hc (by simp)
  exact ⟨w2, h5⟩

/-- C2 at a concrete input: a file beginning with `.` under the `#`
configuration. -/
theorem C2_sniff_preserves_content_witness :
    is_trigger cfg_hash 46 = false ∧
    ∃ w1, input_file_open cfg_hash "a.s" 0 (world_with "a.s" [46, 116, 10]) = some w1 ∧
      w1.f_in = some 1 ∧ w1.streams 1 = some (fresh [46, 116, 10]) ∧ w1.preprocess = 0 ∧
      ((0 : Int) = 0 → ∃ w2, input_file_give_next_buffer cfg_hash w1 =
        some (some ([46, 116, 10].take BUFFER_SIZE), w2)) :=
  ⟨rfl, C2_sniff_preserves_content cfg_hash "a.s" 0 (world_with "a.s" [46, 116, 10]) 1
    (fresh [46, 116, 10]) 46 [116, 10] ⟨rfl, rfl⟩ rfl rfl rfl rfl⟩

/-! ## C3: raw buffers concatenate to the stream content -/

/-- C3: for a file that `input_file_open` left open with preprocessing off
and whose stream then holds the bytes `bs` (no read errors), the buffers
returned by successive `input_file_give_next_buffer` calls up to the first 0
result concatenate to exactly `bs`, reached within `bs.length + 1` calls,
after which no file is open; `bs` is the original content when the first
byte is not the comment trigger, and in every case one pushed-back byte
followed by a suffix of the original content. -/
theorem C3_raw_buffers_concatenate (cfg : Config) (filename : String) (pre : Int)
    (w w1 : World) (h : Nat) (f : FILE) (bs : List Nat)
    (ho : input_file_open cfg filename pre w = some w1)
    (hin : w1.f_in = some h) (hp : w1.preprocess = 0)
    (hs : w1.streams h = some f) (hc : f.content = bytes bs) :
    (∀ m, bs.length < m → ∃ w2, read_all cfg m w1 = some (bs, w2) ∧ w2.f_in = none) ∧
    (∀ h0 f0 b, opens_stream filename w h0 f0 → f0.content.head? = some (Ev.byte b) →
      is_trigger cfg b = false → f0.content = bytes bs) ∧
    (∀ h0 f0, opens_stream filename w h0 f0 →
      ∃ c k, bytes bs = Ev.byte c :: f0.content.drop k) := by
  have hf : f.eof = false := open_stream_not_eof cfg filename pre w w1 h f ho hin hs
  refine ⟨?_, ?_, ?_⟩
  · intro m hm
    exact read_all_bytes cfg m bs w1 h f hm hin hp hs hc (by simp [hf])
  · intro h0 f0 b hr hb ht
    obtain ⟨-, c, rest, e1, -, e3, -, e5⟩ := open_inv cfg filename pre w w1 h h0 f0 ho hin hr
    rw [e3] at hb
    simp only [List.head?_cons, Option.some.injEq, Ev.byte.injEq] at hb
    subst hb
    rw [sniff_not_trigger cfg c _ ht, hs] at e5
    simp only [Option.some.injEq] at e5
    rw [← hc, e5, e3]
    rfl
  · intro h0 f0 hr
    obtain ⟨-, c, rest, -, -, e3, -, e5⟩ := open_inv cfg filename pre w w1 h h0 f0 ho hin hr
    obtain ⟨c1, k, hk⟩ := sniff_drop cfg c (pre, { f0 with content := rest })
    rw [hs] at e5
    simp only [Option.some.injEq] at e5
    refine ⟨c1, 1 + k, ?_⟩
    rw [← hc, e5, hk, e3]
    simp [← List.drop_drop]

/-- C3 at a concrete input: the file `#x` and a newline, then `y`, opened
under the `#` configuration. -/
theorem C3_raw_buffers_concatenate_witness :
    ∃ w1, input_file_open cfg_hash "a.s" 0 (world_with "a.s" [35, 120, 10, 121]) = some w1 ∧
      ∀ m, [35, 10, 121].length < m →
        ∃ w2, read_all cfg_hash m w1 = some ([35, 10, 121], w2) ∧ w2.f_in = none :=
  ⟨_, rfl, (C3_raw_buffers_concatenate cfg_hash "a.s" 0 (world_with "a.s" [35, 120, 10, 121])
    _ 1 (fresh [35, 10, 121]) [35, 10, 121] rfl rfl rfl rfl rfl).1⟩

/-! ## C4: push then pop -/

/-- C4: `input_file_push` followed at once by `input_file_pop` of the
returned token gives back the state before the push (so `preprocess`, the
handle with its stream and read position, and the display name are as
before, and `input_file_give_next_buffer` behaves as it would have); the
token records the three fields, and popping it restores them over any
later state. -/
theorem C4_push_pop_restores (w : World) :
    input_file_pop (input_file_push w).1 (input_file_push w).2 = w ∧
    (input_file_pop (input_file_push w).1 (input_file_push w).2).preprocess = w.preprocess ∧
    (input_file_pop (input_file_push w).1 (input_file_push w).2).f_in = w.f_in ∧
    (input_file_pop (input_file_push w).1 (input_file_push w).2).streams = w.streams ∧
    (input_file_pop (input_file_push w).1 (input_file_push w).2).file_name = w.file_name ∧
    (∀ cfg, input_file_give_next_buffer cfg
        (input_file_pop (input_file_push w).1 (input_file_push w).2) =
      input_file_give_next_buffer cfg w) ∧
    (∀ w1 : World,
      (input_file_pop (input_file_push w).1 w1).preprocess = w.preprocess ∧
      (input_file_pop (input_file_push w).1 w1).f_in = w.f_in ∧
      (input_file_pop (input_file_push w).1 w1).file_name = w.file_name) := by
  have key : input_file_pop (input_file_push w).1 (input_file_push w).2 = w := by
    by_cases hp : w.preprocess = 0
    · cases w
      simp_all [input_file_pop, input_file_push, input_file_begin, input_file_end]
    · simp [input_file_pop, input_file_push, input_file_begin, input_file_end, hp,
        app_push, app_pop]
  refine ⟨key, by rw [key], by rw [key], by rw [key], by rw [key], fun cfg => by rw [key], ?_⟩
  intro w1
  by_cases hp : w.preprocess = 0
  · simp [input_file_pop, input_file_push, input_file_end, hp]
  · simp [input_file_pop, input_file_push, input_file_end, hp, app_push, app_pop]

/-! ## C5: exhaustion is idempotent -/

/-- C5: with no file open `input_file_give_next_buffer` returns 0 and
leaves the state as it is, on every call; no file is open after
`input_file_begin` or `input_file_close`; and once
`input_file_give_next_buffer` has returned 0 no file is open, so every later
call returns 0 again without changing the state. -/
theorem C5_exhaustion_idempotent (cfg : Config) (w : World) :
    (w.f_in = none → ∀ n, nth_buffer cfg n w = some (none, w)) ∧
    (∀ n, nth_buffer cfg n (input_file_begin w) = some (none, input_file_begin w)) ∧
    (∀ w1, input_file_close w = some w1 →
      w1.f_in = none ∧ ∀ n, nth_buffer cfg n w1 = some (none, w1)) ∧
    (∀ w1, input_file_give_next_buffer cfg w = some (none, w1) →
      w1.f_in = none ∧ ∀ n, nth_buffer cfg n w1 = some (none, w1)) := by
  refine ⟨nth_buffer_closed cfg w, nth_buffer_closed cfg _ rfl, ?_, ?_⟩
  · intro w1 hc
    have h1 : w1.f_in = none := by
      unfold input_file_close at hc
      split at hc
      · cases hc; rfl
      · split at hc
        · cases hc
        · cases hc; rfl
    exact ⟨h1, nth_buffer_closed cfg w1 h1⟩
  · intro w1 hr
    have h1 := give_next_buffer_zero cfg w w1 hr
    exact ⟨h1, nth_buffer_closed cfg w1 h1⟩

/-- C5 at a concrete input: a file read to its end. -/
theorem C5_exhaustion_idempotent_witness :
    ∃ w1, input_file_give_next_buffer cfg_hash (world_reading "a.s" at_end) = some (none, w1) ∧
      w1.f_in = none ∧ ∀ n, nth_buffer cfg_hash n w1 = some (none, w1) :=
  ⟨_, rfl, (C5_exhaustion_idempotent cfg_hash (world_reading "a.s" at_end)).2.2.2 _ rfl⟩

/-! ## C6: opening an empty file -/

/-- C6: opening a stream that is at end-of-file on the first read, with no
read error, closes the stream at once, leaves no file open, reports
nothing, and the first `input_file_give_next_buffer` call returns 0. -/
theorem C6_empty_file (cfg : Config) (filename : String) (pre : Int) (w : World)
    (h : Nat) (f : FILE) (ho : opens_stream filename w h f)
    (he : f.err = false) (hend : f.eof = true ∨ f.content = []) :
    ∃ w1, input_file_open cfg filename pre w = some w1 ∧
      w1.f_in = none ∧ w1.streams h = none ∧ w1.diags = w.diags ∧
      input_file_give_next_buffer cfg w1 = some (none, w1) := by
  obtain ⟨h1, h2⟩ := ho
  have hg : (getc f).1 = none ∧ (getc f).2.err = false ∧ (getc f).2.eof = true := by
    cases hf : f.eof
    · rcases hend with h3 | h3
      · rw [hf] at h3; cases h3
      · simp [getc, hf, h3, he]
    · simp [getc, hf, he]
  obtain ⟨-, g2, g3⟩ := hg
  have hopen : ∃ w1, input_file_open cfg filename pre w = some w1 ∧
      w1.f_in = none ∧ w1.streams h = none ∧ w1.diags = w.diags := by
    simp only [input_file_open, open_raw_preprocess, h1, h2, g2, g3]
    simp [fclose, set_stream, open_raw_diags]
  obtain ⟨w1, a, b, c, d⟩ := hopen
  exact ⟨w1, a, b, c, d, give_next_buffer_closed cfg w1 b⟩

/-- C6 at a concrete input: the empty file `a.s`. -/
theorem C6_empty_file_witness :
    ∃ w1, input_file_open cfg_hash "a.s" 1 (world_with "a.s" []) = some w1 ∧
      w1.f_in = none ∧ w1.streams 1 = none ∧ w1.diags = [] ∧
      input_file_give_next_buffer cfg_hash w1 = some (none, w1) :=
  C6_empty_file cfg_hash "a.s" 1 (world_with "a.s" []) 1 (fresh []) ⟨rfl, rfl⟩ rfl (Or.inr rfl)

/-! ## C7: the raw open fails -/

/-- C7: opening a non-empty path whose raw open fails reports exactly one
error (the open failure), sets the display name, leaves no handle open and
the streams untouched (nothing is read), and every
`input_file_give_next_buffer` call after it returns 0 without changing the
state. -/
theorem C7_open_failure (cfg : Config) (filename : String) (pre : Int) (w : World)
    (hn : filename ≠ "") (hfs : w.fs filename = none) :
    input_file_open cfg filename pre w =
      some { w with preprocess := pre, f_in := none, file_name := some filename,
                    diags := w.diags ++ [Diag.bad_open (some filename)] } ∧
    ∀ n, nth_buffer cfg n
        { w with preprocess := pre, f_in := none, file_name := some filename,
                 diags := w.diags ++ [Diag.bad_open (some filename)] } =
      some (none, { w with preprocess := pre, f_in := none, file_name := some filename,
                           diags := w.diags ++ [Diag.bad_open (some filename)] }) := by
  constructor
  · simp [input_file_open, open_raw, fopen, hn, hfs, report]
  · exact nth_buffer_closed cfg _ rfl

/-- C7 at a concrete input: the path `b.s` does not exist. -/
theorem C7_open_failure_witness :
    (input_file_open cfg_hash "b.s" 1 (world_with "a.s" [120])).map
      (fun w1 => (w1.f_in, w1.diags, (w1.streams 1).isSome)) =
      some (none, [Diag.bad_open (some "b.s")], false) :=
  (congrArg (Option.map fun w1 => (w1.f_in, w1.diags, (w1.streams 1).isSome))
    (C7_open_failure cfg_hash "b.s" 1 (world_with "a.s" [120]) (by decide) rfl).1).trans rfl

/-! ## C8: pop and the file that is open -/

/-- C8 fails on the code: after a push, a file opened in the nested session
is open on handle 1, and `input_file_pop` of the token leaves that stream
open while the session no longer refers to it. -/
theorem C8_pop_leaves_stream_open :
    (input_file_open cfg_hash "b.s" 0 (input_file_push (world_with "b.s" [120, 10])).2).map
      (fun w2 =>
        (w2.f_in,
         (input_file_pop (input_file_push (world_with "b.s" [120, 10])).1 w2).f_in,
         ((input_file_pop (input_file_push (world_with "b.s" [120, 10])).1 w2).streams 1).isSome))
      = some (some 1, none, true) := by
  decide

/-! ## C9: the buffer size -/

/-- C9: `input_file_buffer_size` is 32768; with preprocessing off every
buffer that `input_file_give_next_buffer` delivers has at most 32768 bytes;
and the result (bytes and count) is the same as with the multibyte scan
off. -/
theorem C9_buffer_size (cfg : Config) (w : World) (hp : w.preprocess = 0) :
    input_file_buffer_size = 32768 ∧
    (∀ bs w1, input_file_give_next_buffer cfg w = some (some bs, w1) →
      bs.length ≤ input_file_buffer_size) ∧
    (input_file_give_next_buffer cfg w).map Prod.fst =
      (input_file_give_next_buffer { cfg with multibyte_warn := false } w).map Prod.fst := by
  refine ⟨rfl, ?_, ?_⟩
  · intro bs w1 hr
    unfold input_file_give_next_buffer at hr
    split at hr
    · cases hr
    · split at hr
      · cases hr
      · rename_i r hfill
        split_ifs at hr
        · cases hr
          simp only [fill_buffer, hp, ne_eq, not_true_eq_false, if_false] at hfill
          split at hfill
          · cases hfill
          · rename_i r0 hget
            have hl := input_file_get_length BUFFER_SIZE w r0.2 r0.1 hget
            split_ifs at hfill <;> (cases hfill; exact hl)
        · split at hr
          · cases hr
          · split at hr <;> cases hr
  · cases hm : cfg.multibyte_warn
    · simp [input_file_give_next_buffer, fill_buffer, hm]
    · cases hin : w.f_in with
      | none => simp [input_file_give_next_buffer, hin]
      | some h =>
        cases hget : input_file_get BUFFER_SIZE w with
        | none => simp [input_file_give_next_buffer, hin, fill_buffer, hp, hget]
        | some r =>
          obtain ⟨bs, w1⟩ := r
          by_cases hl : bs = []
          · cases h2 : w1.f_in with
            | none => simp [input_file_give_next_buffer, hin, fill_buffer, hp, hget, hm, hl, h2]
            | some h3 =>
              cases h4 : w1.streams h3 <;>
                simp [input_file_give_next_buffer, hin, fill_buffer, hp, hget, hm, hl, h2,
                  fclose, h4]
          · simp [input_file_give_next_buffer, hin, fill_buffer, hp, hget, hm, hl]

/-- C9 at a concrete input: a three-byte file read raw. -/
theorem C9_buffer_size_witness :
    (world_reading "a.s" (fresh [120, 121, 10])).preprocess = 0 ∧
    input_file_buffer_size = 32768 ∧
    (∀ bs w1, input_file_give_next_buffer cfg_hash
        (world_reading "a.s" (fresh [120, 121, 10])) = some (some bs, w1) →
      bs.length ≤ input_file_buffer_size) ∧
    (input_file_give_next_buffer cfg_hash (world_reading "a.s" (fresh [120, 121, 10]))).map
        Prod.fst =
      (input_file_give_next_buffer { cfg_hash with multibyte_warn := false }
        (world_reading "a.s" (fresh [120, 121, 10]))).map Prod.fst :=
  ⟨rfl, C9_buffer_size cfg_hash (world_reading "a.s" (fresh [120, 121, 10])) rfl⟩

/-! ## C10: the sniffed flag -/

/-- C10: for every stream whose first byte can be read and every hint,
`preprocess` after `input_file_open` is 0 when the first byte is the
trigger, the second is `N` and the line of up to 79 further bytes begins
with `O_APP` followed by end-of-line; 1 when the first byte is the trigger,
the second is `A` and that line begins with `PP` followed by end-of-line;
and the hint in every other case. -/
theorem C10_sniffed_flag_exact (cfg : Config) (filename : String) (pre : Int) (w : World)
    (h : Nat) (f : FILE) (c : Nat) (rest : List Ev)
    (ho : opens_stream filename w h f) (hf : f.eof = false) (he : f.err = false)
    (hc : f.content = Ev.byte c :: rest) :
    ∃ w1, input_file_open cfg filename pre w = some w1 ∧ w1.f_in = some h ∧
      w1.preprocess = sniffed_flag cfg pre f.content := by
  obtain ⟨w1, h1, h2, h3, -⟩ := open_first_byte cfg filename pre w h f c rest ho hf he hc
  refine ⟨w1, h1, h2, ?_⟩
  rw [h3, sniff_flag cfg c pre { f with content := rest } hf, hc]

/-- C10 at concrete inputs: the files `#NO_APPX`, `#APPLE` and `#N`, each
with a newline, keep the hint; the first is opened with hint 1. -/
theorem C10_sniffed_flag_exact_witness :
    (∃ w1, input_file_open cfg_hash "a.s" 1
        (world_with "a.s" [35, 78, 79, 95, 65, 80, 80, 88, 10]) = some w1 ∧
      w1.f_in = some 1 ∧ w1.preprocess = 1) ∧
    sniffed_flag cfg_hash 0 (bytes [35, 65, 80, 80, 76, 69, 10]) = 0 ∧
    sniffed_flag cfg_hash 1 (bytes [35, 78, 10]) = 1 ∧
    sniffed_flag cfg_hash 1 (bytes NO_APP_line) = 0 ∧
    sniffed_flag cfg_hash 0 (bytes APP_line) = 1 :=
  ⟨C10_sniffed_flag_exact cfg_hash "a.s" 1
      (world_with "a.s" [35, 78, 79, 95, 65, 80, 80, 88, 10]) 1
      (fresh [35, 78, 79, 95, 65, 80, 80, 88, 10]) 35
      (bytes [78, 79, 95, 65, 80, 80, 88, 10]) ⟨rfl, rfl⟩ rfl rfl rfl,
    by decide, by decide, by decide, by decide⟩

/-! ## C11: a changed flag needs a directive line -/

/-- The flag after any open whose raw open selected a stream. -/
theorem open_flag (cfg : Config) (filename : String) (pre : Int) (w w1 : World)
    (h0 : Nat) (f0 : FILE)
    (hr : opens_stream filename w h0 f0)
    (ho : input_file_open cfg filename pre w = some w1) :
    w1.preprocess =
      if f0.eof = false ∧ f0.err = false then sniffed_flag cfg pre f0.content else pre := by
  obtain ⟨r1, r2⟩ := hr
  cases hf : f0.eof
  · cases hc : f0.content with
    | nil =>
      simp only [input_file_open, open_raw_preprocess, r1, r2] at ho
      simp [getc, hf, hc, fclose, set_stream, report] at ho
      split_ifs at ho <;> (cases ho; simp [sniffed_flag])
    | cons e rest =>
      cases e with
      | fail =>
        simp only [input_file_open, open_raw_preprocess, r1, r2] at ho
        simp [getc, hf, hc, fclose, set_stream, report] at ho
        cases ho; simp [sniffed_flag]
      | byte b =>
        cases he : f0.err
        · obtain ⟨w2, e1, -, e3, -⟩ :=
            open_first_byte cfg filename pre w h0 f0 b rest ⟨r1, r2⟩ hf he hc
          rw [ho] at e1
          cases e1
          rw [e3, sniff_flag cfg b pre { f0 with content := rest } hf]
          simp
        · simp only [input_file_open, open_raw_preprocess, r1, r2] at ho
          simp [getc, hf, hc, he, fclose, set_stream, report] at ho
          cases ho; simp
  · simp only [input_file_open, open_raw_preprocess, r1, r2] at ho
    simp [getc, hf, fclose, set_stream, report] at ho
    split_ifs at ho <;> (cases ho; simp)

theorem line_bytes_append (word : List Nat) (hw : 10 ∉ word) :
    ∀ (n : Nat) (tail : List Ev),
      line_bytes (word.length + n) (bytes word ++ tail) = word ++ line_bytes n tail := by
  induction word with
  | nil => intro n tail; simp [bytes]
  | cons x word ih =>
    intro n tail
    have hx : ¬ x = 10 := fun e => hw (e ▸ List.mem_cons_self _ _)
    have h2 := ih (fun e => hw (List.mem_cons_of_mem _ e)) n tail
    simp only [line_bytes, bytes] at h2 ⊢
    simp [leading_bytes, upto_newline, hx, Nat.add_right_comm _ 1 n, h2]

theorem prefix_line_bytes (word : List Nat) (hw : 10 ∉ word) :
    ∀ (n : Nat) (evs : List Ev), word.isPrefixOf (line_bytes n evs) = true →
      ∃ tail, evs = bytes word ++ tail ∧ word.length ≤ n := by
  induction word with
  | nil => intro n evs _; exact ⟨evs, by simp [bytes], Nat.zero_le _⟩
  | cons x word ih =>
    intro n evs hp
    have hx : ¬ x = 10 := fun e => hw (e ▸ List.mem_cons_self _ _)
    cases n with
    | zero => simp [line_bytes, upto_newline] at hp
    | succ n =>
      cases evs with
      | nil => simp [line_bytes, leading_bytes, upto_newline] at hp
      | cons e rest =>
        cases e with
        | fail => simp [line_bytes, leading_bytes, upto_newline] at hp
        | byte b =>
          by_cases hb : b = 10
          · subst hb
            simp [line_bytes, leading_bytes, upto_newline] at hp
            exact absurd hp.1 hx
          · simp only [line_bytes, leading_bytes, List.take_succ_cons, upto_newline, hb,
              if_false, List.isPrefixOf, Bool.and_eq_true, beq_iff_eq] at hp
            obtain ⟨tail, h1, h2⟩ := ih (fun e => hw (List.mem_cons_of_mem _ e)) n rest hp.2
            refine ⟨tail, ?_, Nat.succ_le_succ h2⟩
            rw [h1, hp.1]
            rfl
theorem directive_line_begins (cfg : Config) (word : List Nat) (hw : 10 ∉ word) (m : Nat)
    (evs : List Ev)
    (hd : directive_line cfg word (line_read (word.length + (m + 1)) evs) = true) :
    ∃ tail, evs = bytes word ++ tail ∧
      ((tail = [] ∧ cfg.is_end_of_line 0 = true) ∨
        ∃ b t, tail = Ev.byte b :: t ∧ cfg.is_end_of_line b = true) := by
  cases hl : line_read (word.length + (m + 1)) evs with
  | none => simp [hl, directive_line] at hd
  | some l =>
    have hl2 : l = line_bytes (word.length + (m + 1)) evs := by
      unfold line_read at hl
      split_ifs at hl <;> (cases hl; rfl)
    simp only [hl, directive_line, Bool.and_eq_true] at hd
    obtain ⟨hp, he⟩ := hd
    rw [hl2] at hp
    obtain ⟨tail, h1, -⟩ := prefix_line_bytes word hw _ evs hp
    refine ⟨tail, h1, ?_⟩
    have h3 := line_bytes_append word hw (m + 1) tail
    rw [← h1] at h3
    rw [hl2, h3, List.getD_append_right _ _ _ _ (Nat.le_refl _), Nat.sub_self] at he
    cases tail with
    | nil =>
      left
      exact ⟨rfl, by simpa [line_bytes, leading_bytes, upto_newline] using he⟩
    | cons e t =>
      cases e with
      | fail =>
        exfalso
        rw [h1] at hl
        have h4 : line_bytes (word.length + (m + 1)) (bytes word ++ Ev.fail :: t) = word := by
          rw [line_bytes_append word hw]
          simp [line_bytes, leading_bytes, upto_newline]
        have h5 : (bytes word).length = word.length := by simp [bytes]
        simp [line_read, h4, hw, h5] at hl
      | byte b =>
        right
        refine ⟨b, t, rfl, ?_⟩
        by_cases hb : b = 10
        · simpa [line_bytes, leading_bytes, upto_newline, hb] using he
        · simpa [line_bytes, leading_bytes, upto_newline, hb] using he
theorem is_trigger_hash (cfg : Config) (c : Nat) (ht : is_trigger cfg c = true)
    (hh : 35 ∈ cfg.line_comment_chars) : c = 35 := by
  simpa [is_trigger, hh] using ht

theorem sniffed_flag_ne (cfg : Config) (pre : Int) (evs : List Ev)
    (hne : sniffed_flag cfg pre evs ≠ pre) :
    ∃ c, is_trigger cfg c = true ∧ (35 ∈ cfg.line_comment_chars → c = 35) ∧
      ((begins_with cfg c NO_APP_word evs ∧ sniffed_flag cfg pre evs = 0) ∨
       (begins_with cfg c APP_word evs ∧ sniffed_flag cfg pre evs = 1)) := by
  unfold sniffed_flag at hne ⊢
  split at hne
  · rename_i c c2 rest
    split_ifs at hne with hN hA
    · have hN0 := hN
      simp only [Bool.and_eq_true, beq_iff_eq] at hN
      obtain ⟨⟨ht, h78⟩, hd⟩ := hN
      obtain ⟨tail, h1, h2⟩ := directive_line_begins cfg O_APP (by decide) 73 rest hd
      refine ⟨c, ht, is_trigger_hash cfg c ht, Or.inl ⟨⟨tail, ?_, h2⟩, ?_⟩⟩
      · rw [h1, h78]; rfl
      · rw [if_pos hN0]
    · have hA0 := hA
      simp only [Bool.and_eq_true, beq_iff_eq] at hA
      obtain ⟨⟨ht, h65⟩, hd⟩ := hA
      obtain ⟨tail, h1, h2⟩ := directive_line_begins cfg PP (by decide) 76 rest hd
      refine ⟨c, ht, is_trigger_hash cfg c ht, Or.inr ⟨⟨tail, ?_, h2⟩, ?_⟩⟩
      · rw [h1, h65]; rfl
      · rw [if_neg hN, if_pos hA0]
    · exact absurd rfl hne
  · exact absurd rfl hne

/-- C11 (amended): if `input_file_open` leaves `preprocess` different from
the hint, then the stream begins with the comment trigger `c` of the
configuration (which is `#` whenever `#` is a line-comment character)
followed by `NO_APP` or `APP` and then end-of-line, and the flag is 0 or 1
accordingly. -/
theorem C11_flag_change_needs_directive (cfg : Config) (filename : String) (pre : Int)
    (w w1 : World) (h0 : Nat) (f0 : FILE)
    (hr : opens_stream filename w h0 f0)
    (ho : input_file_open cfg filename pre w = some w1)
    (hne : w1.preprocess ≠ pre) :
    ∃ c, is_trigger cfg c = true ∧ (35 ∈ cfg.line_comment_chars → c = 35) ∧
      ((begins_with cfg c NO_APP_word f0.content ∧ w1.preprocess = 0) ∨
       (begins_with cfg c APP_word f0.content ∧ w1.preprocess = 1)) := by
  have hfl := open_flag cfg filename pre w w1 h0 f0 hr ho
  split_ifs at hfl with hcl
  · rw [hfl] at hne ⊢
    exact sniffed_flag_ne cfg pre f0.content hne
  · exact absurd hfl hne

/-- C11 at a concrete input: the file `#APP` opened with hint 0 under the
`#` configuration. -/
theorem C11_flag_change_needs_directive_witness :
    ∃ c, is_trigger cfg_hash c = true ∧ (35 ∈ cfg_hash.line_comment_chars → c = 35) ∧
      ((begins_with cfg_hash c NO_APP_word (fresh APP_line).content ∧ (1 : Int) = 0) ∨
       (begins_with cfg_hash c APP_word (fresh APP_line).content ∧ (1 : Int) = 1)) :=
  C11_flag_change_needs_directive cfg_hash "a.s" 0 (world_with "a.s" APP_line) _ 1
    (fresh APP_line) ⟨rfl, rfl⟩ rfl (by decide)

/-- C11 as stated fails when `#` is not a line-comment character: with `!`
the only one, the file `!APP` opened with hint 0 ends with `preprocess` 1
although it begins with `!`, not `#`. -/
theorem C11_counterexample :
    opens_stream "a.s" (world_with "a.s" [33, 65, 80, 80, 10]) 1
      (fresh [33, 65, 80, 80, 10]) ∧
    (input_file_open cfg_bang "a.s" 0 (world_with "a.s" [33, 65, 80, 80, 10])).map
      (fun w1 => w1.preprocess) = some 1 ∧
    (fresh [33, 65, 80, 80, 10]).content.head? ≠ some (Ev.byte 35) :=
  ⟨⟨rfl, rfl⟩, by decide, by decide⟩

/-! ## C13 and C14: the second byte is a newline, or some other byte -/

theorem sniff_newline (cfg : Config) (c : Nat) (pre : Int) (f : FILE) (rest : List Ev)
    (ht : is_trigger cfg c = true) (hf : f.eof = false)
    (hc : f.content = Ev.byte 10 :: rest) :
    sniff cfg c (pre, f) = (pre, { f with content := Ev.byte 10 :: rest }) := by
  simp [sniff, ht, getc_byte f 10 rest hf hc, ungetc, hf]

theorem sniff_other (cfg : Config) (c c2 : Nat) (pre : Int) (f : FILE) (rest : List Ev)
    (ht : is_trigger cfg c = true) (hf : f.eof = false)
    (hc : f.content = Ev.byte c2 :: rest)
    (hN : c2 ≠ 78) (hA : c2 ≠ 65) (hnl : c2 ≠ 10) :
    sniff cfg c (pre, f) = (pre, { f with content := Ev.byte c :: rest }) := by
  simp [sniff, ht, getc_byte f c2 rest hf hc, ungetc, hf, hN, hA, hnl]

/-- C13 (amended): when the second byte after the comment trigger is a
newline, `input_file_open` pushes back only that newline and drops the
trigger: the stream afterwards reads the newline followed by the bytes after
it, and `preprocess` equals the hint. -/
theorem C13_newline_after_trigger (cfg : Config) (filename : String) (pre : Int)
    (w : World) (h : Nat) (f : FILE) (c : Nat) (rest : List Ev)
    (ho : opens_stream filename w h f) (hf : f.eof = false) (he : f.err = false)
    (hc : f.content = Ev.byte c :: Ev.byte 10 :: rest)
    (ht : is_trigger cfg c = true) :
    ∃ w1, input_file_open cfg filename pre w = some w1 ∧ w1.f_in = some h ∧
      w1.streams h = some { f with content := Ev.byte 10 :: rest } ∧
      w1.preprocess = pre := by
  obtain ⟨w1, h1, h2, h3, h4, -⟩ :=
    open_first_byte cfg filename pre w h f c (Ev.byte 10 :: rest) ho hf he hc
  rw [sniff_newline cfg c pre { f with content := Ev.byte 10 :: rest } rest ht hf rfl] at h3 h4
  exact ⟨w1, h1, h2, h4, h3⟩

/-- C13 at a concrete input: the file `#`, newline, `x` under the `#`
configuration. -/
theorem C13_newline_after_trigger_witness :
    ∃ w1, input_file_open cfg_hash "a.s" 1 (world_with "a.s" [35, 10, 120]) = some w1 ∧
      w1.f_in = some 1 ∧
      w1.streams 1 = some { fresh [35, 10, 120] with content := Ev.byte 10 :: bytes [120] } ∧
      w1.preprocess = 1 :=
  C13_newline_after_trigger cfg_hash "a.s" 1 (world_with "a.s" [35, 10, 120]) 1
    (fresh [35, 10, 120]) 35 (bytes [120]) ⟨rfl, rfl⟩ rfl rfl rfl rfl

/-- C13 as stated fails for a carriage return: the end-of-line predicate of
the `#` configuration accepts it, yet after opening the file `#`, carriage
return, `x`, newline the stream reads `#x` and a newline: the trigger is
pushed back and the carriage return is dropped. -/
theorem C13_counterexample :
    cfg_hash.is_end_of_line 13 = true ∧
    (input_file_open cfg_hash "a.s" 1 (world_with "a.s" [35, 13, 120, 10])).map
      (fun w1 => w1.streams 1) = some (some (fresh [35, 120, 10])) :=
  ⟨rfl, by decide⟩

/-- C14: when the comment trigger `c` is followed by a byte `c2` that is not
`N`, not `A` and not end-of-line (newline being an end-of-line),
`input_file_open` pushes back only `c` and discards `c2`: for the stream
`c :: c2 :: rest` the stream afterwards reads `c :: rest`, and `preprocess`
equals the hint. -/
theorem C14_second_byte_discarded (cfg : Config) (filename : String) (pre : Int)
    (w : World) (h : Nat) (f : FILE) (c c2 : Nat) (rest : List Ev)
    (ho : opens_stream filename w h f) (hf : f.eof = false) (he : f.err = false)
    (hc : f.content = Ev.byte c :: Ev.byte c2 :: rest)
    (ht : is_trigger cfg c = true)
    (hN : c2 ≠ 78) (hA : c2 ≠ 65)
    (hnl : cfg.is_end_of_line 10 = true) (hc2 : cfg.is_end_of_line c2 = false) :
    ∃ w1, input_file_open cfg filename pre w = some w1 ∧ w1.f_in = some h ∧
      w1.streams h = some { f with content := Ev.byte c :: rest } ∧
      w1.preprocess = pre := by
  have h10 : c2 ≠ 10 := by
    intro e
    rw [e, hnl] at hc2
    cases hc2
  obtain ⟨w1, h1, h2, h3, h4, -⟩ :=
    open_first_byte cfg filename pre w h f c (Ev.byte c2 :: rest) ho hf he hc
  rw [sniff_other cfg c c2 pre { f with content := Ev.byte c2 :: rest } rest ht hf rfl
    hN hA h10] at h3 h4
  exact ⟨w1, h1, h2, h4, h3⟩

/-- C14 at a concrete input: the file `#x` then `y` and a newline under the
`#` configuration loses the `x`. -/
theorem C14_second_byte_discarded_witness :
    ∃ w1, input_file_open cfg_hash "a.s" 1 (world_with "a.s" [35, 120, 121, 10]) = some w1 ∧
      w1.f_in = some 1 ∧
      w1.streams 1 =
        some { fresh [35, 120, 121, 10] with content := Ev.byte 35 :: bytes [121, 10] } ∧
      w1.preprocess = 1 :=
  C14_second_byte_discarded cfg_hash "a.s" 1 (world_with "a.s" [35, 120, 121, 10]) 1
    (fresh [35, 120, 121, 10]) 35 120 (bytes [121, 10]) ⟨rfl, rfl⟩ rfl rfl rfl rfl
    (by decide) (by decide) rfl rfl

/-! ## C16: the first read hits an error or the end -/

/-- C16 (amended): when the first read of `input_file_open` leaves the
stream at error, open reports one read error, closes the stream and leaves
no file open; when it leaves the stream at end-of-file without error, open
closes the stream and leaves no file open without any report. -/
theorem C16_open_at_error_or_eof (cfg : Config) (filename : String) (pre : Int)
    (w : World) (h : Nat) (f : FILE) (ho : opens_stream filename w h f) :
    ((getc f).2.err = true →
      ∃ w1, input_file_open cfg filename pre w = some w1 ∧ w1.f_in = none ∧
        w1.streams h = none ∧
        w1.diags = w.diags ++ [Diag.bad_read (open_raw filename w).file_name]) ∧
    ((getc f).2.err = false → (getc f).2.eof = true →
      ∃ w1, input_file_open cfg filename pre w = some w1 ∧ w1.f_in = none ∧
        w1.streams h = none ∧ w1.diags = w.diags) := by
  obtain ⟨h1, h2⟩ := ho
  constructor
  · intro g1
    simp only [input_file_open, open_raw_preprocess, h1, h2, g1]
    simp [fclose, set_stream, report, open_raw_diags]
  · intro g1 g2
    simp only [input_file_open, open_raw_preprocess, h1, h2, g1, g2]
    simp [fclose, set_stream, open_raw_diags]

/-- C16 at a concrete input: a file whose first read fails. -/
theorem C16_open_at_error_or_eof_witness :
    ∃ w1, input_file_open cfg_hash "a.s" 1 (world_file "a.s" failing) = some w1 ∧
      w1.f_in = none ∧ w1.streams 1 = none ∧
      w1.diags = [] ++ [Diag.bad_read (some "a.s")] :=
  (C16_open_at_error_or_eof cfg_hash "a.s" 1
    (world_file "a.s" failing) 1 failing ⟨rfl, rfl⟩).1 rfl

/-- C16 as stated fails in the error case: opening a file whose first read
fails reports a read error. -/
theorem C16_counterexample :
    (input_file_open cfg_hash "a.s" 1 (world_file "a.s" failing)).map
      (fun w1 => (w1.f_in, w1.diags)) = some (none, [Diag.bad_read (some "a.s")]) := by
  decide

/-! ## C17: a read error while reading raw -/

theorem fread_fail (bs : List Nat) : ∀ (n : Nat) (f : FILE) (rest : List Ev),
    f.eof = false → f.content = bytes bs ++ Ev.fail :: rest → bs.length < n →
    fread n f = (bs, { f with content := rest, err := true }) := by
  induction bs with
  | nil =>
    intro n f rest hf hc hlt
    cases n with
    | zero => exact absurd hlt (Nat.lt_irrefl _)
    | succ n =>
      simp only [bytes, List.map_nil, List.nil_append] at hc
      simp [fread, hf, hc]
  | cons b bs ih =>
    intro n f rest hf hc hlt
    cases n with
    | zero => exact absurd hlt (Nat.not_lt_zero _)
    | succ n =>
      simp only [bytes, List.map_cons, List.cons_append] at hc
      have h2 := ih n { f with content := bytes bs ++ Ev.fail :: rest } rest hf rfl
        (Nat.lt_of_succ_lt_succ hlt)
      simp only [bytes, hf] at h2
      simp [fread, hf, hc, h2]

/-- C17 (amended): in raw mode a read that fails after delivering the bytes
`bs` is reported once by that call and is not fatal; when no byte was
delivered the same call closes the file and returns 0, and every later call
returns 0 without a further report; when bytes were delivered they are
returned, the file stays open and the error indicator stays set. -/
theorem C17_read_error (cfg : Config) (w : World) (h : Nat) (f : FILE)
    (bs : List Nat) (rest : List Ev)
    (hin : w.f_in = some h) (hp : w.preprocess = 0) (hs : w.streams h = some f)
    (hf : f.eof = false)
    (hc : f.content = bytes bs ++ Ev.fail :: rest) (hlt : bs.length < BUFFER_SIZE) :
    (bs = [] →
      ∃ w1, input_file_give_next_buffer cfg w = some (none, w1) ∧
        w1.f_in = none ∧ w1.streams h = none ∧
        w1.diags = w.diags ++ [Diag.bad_read w.file_name]
          ++ (if cfg.multibyte_warn then cfg.scan_for_multibyte_characters [] else [])
          ++ (if f.close_fails then [Diag.warn_close w.file_name] else []) ∧
        ∀ n, nth_buffer cfg n w1 = some (none, w1)) ∧
    (bs ≠ [] →
      ∃ w1, input_file_give_next_buffer cfg w = some (some bs, w1) ∧
        w1.f_in = some h ∧
        w1.streams h = some { f with content := rest, err := true } ∧
        w1.diags = w.diags ++ [Diag.bad_read w.file_name]
          ++ (if cfg.multibyte_warn then cfg.scan_for_multibyte_characters bs else [])) := by
  have hr := fread_fail bs BUFFER_SIZE f rest hf hc hlt
  constructor
  · intro hb
    subst hb
    have hopen : ∃ w1, input_file_give_next_buffer cfg w = some (none, w1) ∧
        w1.f_in = none ∧ w1.streams h = none ∧
        w1.diags = w.diags ++ [Diag.bad_read w.file_name]
          ++ (if cfg.multibyte_warn then cfg.scan_for_multibyte_characters [] else [])
          ++ (if f.close_fails then [Diag.warn_close w.file_name] else []) := by
      cases hm : cfg.multibyte_warn <;> cases hcl : f.close_fails <;>
        simp [input_file_give_next_buffer, hin, fill_buffer, hp, input_file_get, hs, hf, hr,
          set_stream, report, fclose, hm, hcl]
    obtain ⟨w1, a, b, c, d⟩ := hopen
    exact ⟨w1, a, b, c, d, nth_buffer_closed cfg w1 b⟩
  · intro hb
    have hlen : ¬ bs.length = 0 := fun e => hb (List.length_eq_zero.mp e)
    cases hm : cfg.multibyte_warn <;>
      simp [input_file_give_next_buffer, hin, fill_buffer, hp, input_file_get, hs, hf, hr,
        set_stream, report, hm, hlen, hb]
/-- C17 at a concrete input: a read that fails after delivering one byte. -/
theorem C17_read_error_witness :
    ∃ w1, input_file_give_next_buffer cfg_hash
        (world_reading "a.s" (failing_after [120] [])) = some (some [120], w1) ∧
      w1.f_in = some 1 ∧
      w1.streams 1 = some { failing_after [120] [] with content := bytes [], err := true } ∧
      w1.diags = [] ++ [Diag.bad_read (some "a.s")]
        ++ (if cfg_hash.multibyte_warn then cfg_hash.scan_for_multibyte_characters [120]
            else []) :=
  (C17_read_error cfg_hash (world_reading "a.s" (failing_after [120] [])) 1
    (failing_after [120] []) [120] (bytes []) rfl rfl rfl rfl rfl (by decide)).2 (by decide)

/-- C17 as stated fails when the failing read delivered bytes: the next call
reports the read error a second time (the error indicator is still set), and
when the stream has more bytes the next call returns them instead of 0. -/
theorem C17_counterexample :
    (nth_buffer cfg_hash 1 (world_reading "a.s" (failing_after [120] []))).map
        (fun r => (r.1, r.2.diags)) =
      some (none, [Diag.bad_read (some "a.s"), Diag.bad_read (some "a.s")]) ∧
    (nth_buffer cfg_hash 1 (world_reading "a.s" (failing_after [120] [121]))).map
        (fun r => (r.1, r.2.diags)) =
      some (some [121], [Diag.bad_read (some "a.s"), Diag.bad_read (some "a.s")]) :=
  ⟨by decide, by decide⟩

/-! ## C18: a display name whenever a file is open -/

theorem open_raw_file_name (filename : String) (w : World) :
    (open_raw filename w).file_name =
      some (if filename ≠ "" then filename else "\x7bstandard input\x7d") := by
  by_cases hn : filename = ""
  · simp [open_raw, hn]
  · simp [open_raw, hn]

theorem open_file_name (cfg : Config) (filename : String) (pre : Int) (w w1 : World)
    (ho : input_file_open cfg filename pre w = some w1) :
    w1.file_name = (open_raw filename w).file_name := by
  unfold input_file_open at ho
  simp only [open_raw_preprocess] at ho
  split at ho
  · cases ho; rfl
  · split at ho
    · cases ho
    · split_ifs at ho
      · split at ho
        · cases ho
        · rename_i cw hcl
          cases ho
          simp only [fclose] at hcl
          split at hcl
          · cases hcl
          · cases hcl; rfl
      · split at ho
        · cases ho
        · rename_i cw hcl
          cases ho
          simp only [fclose] at hcl
          split at hcl
          · cases hcl
          · cases hcl; rfl
      · split at ho
        · cases ho
        · cases ho; rfl

theorem input_file_get_file_name (n : Nat) (w : World) (r : List Nat × World)
    (hg : input_file_get n w = some r) : r.2.file_name = w.file_name := by
  unfold input_file_get at hg
  split at hg
  · cases hg
  · split at hg
    · cases hg
    · split_ifs at hg
      · cases hg; rfl
      · cases hg
        simp only [set_stream, report]
        split_ifs <;> rfl

theorem run_scrub_file_name (p : Scrub) : ∀ (w : World) (r : List Nat × World),
    run_scrub p w = some r → r.2.file_name = w.file_name := by
  induction p with
  | ret out st => intro w r hr; simp only [run_scrub] at hr; cases hr; rfl
  | get buflen k ih =>
    intro w r hr
    simp only [run_scrub] at hr
    split at hr
    · cases hr
    · rename_i r0 hg
      exact (ih r0.1 r0.2 r hr).trans (input_file_get_file_name buflen w r0 hg)

theorem give_next_buffer_file_name (cfg : Config) (w : World)
    (r : Option (List Nat) × World)
    (hr : input_file_give_next_buffer cfg w = some r) : r.2.file_name = w.file_name := by
  unfold input_file_give_next_buffer at hr
  split at hr
  · cases hr; rfl
  · split at hr
    · cases hr
    · rename_i r0 hfill
      have h0 : r0.2.file_name = w.file_name := by
        unfold fill_buffer at hfill
        by_cases hp : w.preprocess ≠ 0
        · rw [if_pos hp] at hfill
          exact run_scrub_file_name _ w r0 hfill
        · rw [if_neg hp] at hfill
          cases hg : input_file_get BUFFER_SIZE w with
          | none => rw [hg] at hfill; cases hfill
          | some r1 =>
            rw [hg] at hfill
            have h1 := input_file_get_file_name BUFFER_SIZE w r1 hg
            by_cases hm : cfg.multibyte_warn = true
            · simp only [hm, if_true] at hfill
              cases hfill; exact h1
            · simp only [hm, if_false] at hfill
              cases hfill; exact h1
      split_ifs at hr
      · cases hr; exact h0
      · split at hr
        · cases hr
        · split at hr
          · cases hr
          · rename_i cw hcl
            cases hr
            simp only [fclose] at hcl
            split at hcl
            · cases hcl
            · cases hcl
              split_ifs <;> exact h0
theorem standard_input_ne : ("\x7bstandard input\x7d" : String) ≠ "" := by decide

theorem open_named (cfg : Config) (filename : String) (pre : Int) (w w1 : World)
    (ho : input_file_open cfg filename pre w = some w1) :
    named w1.f_in w1.file_name := by
  intro _
  rw [open_file_name cfg filename pre w w1 ho, open_raw_file_name]
  by_cases hn : filename = ""
  · exact ⟨_, rfl, by simp [hn, standard_input_ne]⟩
  · exact ⟨_, rfl, by simp [hn]⟩

theorem pop_fields (t : saved_file) (w : World) :
    (input_file_pop t w).f_in = t.f_in ∧ (input_file_pop t w).file_name = t.file_name ∧
      (input_file_pop t w).preprocess = t.preprocess := by
  unfold input_file_pop input_file_end app_pop
  dsimp only
  split_ifs
  · cases t.app_save <;> exact ⟨rfl, rfl, rfl⟩
  · exact ⟨rfl, rfl, rfl⟩

theorem push_fields (w : World) :
    (input_file_push w).1.f_in = w.f_in ∧ (input_file_push w).1.file_name = w.file_name ∧
      (input_file_push w).2.f_in = none := by
  unfold input_file_push input_file_begin
  exact ⟨rfl, rfl, rfl⟩

theorem step_named (cfg : Config) (op : Op) (s s1 : Session)
    (hs : session_named s) (hstep : step cfg op s = some s1) : session_named s1 := by
  obtain ⟨h1, h2⟩ := hs
  cases op with
  | open_file filename pre =>
    simp only [step, Option.map_eq_some'] at hstep
    obtain ⟨w1, ho, rfl⟩ := hstep
    exact ⟨open_named cfg filename pre s.w w1 ho, h2⟩
  | close =>
    simp only [step, Option.map_eq_some'] at hstep
    obtain ⟨w1, hc, rfl⟩ := hstep
    refine ⟨?_, h2⟩
    intro hne
    exfalso
    apply hne
    unfold input_file_close at hc
    split at hc
    · cases hc; rfl
    · split at hc
      · cases hc
      · cases hc; rfl
  | next =>
    simp only [step, Option.map_eq_some'] at hstep
    obtain ⟨r, hr, rfl⟩ := hstep
    refine ⟨?_, h2⟩
    intro hne
    have hopen : s.w.f_in ≠ none := by
      intro hcl
      rw [give_next_buffer_closed cfg s.w hcl] at hr
      cases hr
      exact hne hcl
    rw [give_next_buffer_file_name cfg s.w r hr]
    exact h1 hopen
  | push =>
    simp only [step, Option.some.injEq] at hstep
    subst hstep
    obtain ⟨p1, p2, p3⟩ := push_fields s.w
    refine ⟨fun hne => absurd p3 hne, ?_⟩
    intro t ht
    rcases List.mem_cons.mp ht with rfl | ht
    · rw [p1, p2]; exact h1
    · exact h2 t ht
  | pop i =>
    simp only [step, Option.map_eq_some'] at hstep
    obtain ⟨t, ht, rfl⟩ := hstep
    obtain ⟨p1, p2, -⟩ := pop_fields t s.w
    refine ⟨?_, fun t1 ht1 => h2 t1 (List.mem_of_mem_eraseIdx ht1)⟩
    show named (input_file_pop t s.w).f_in (input_file_pop t s.w).file_name
    rw [p1, p2]
    exact h2 t (List.get?_mem ht)

theorem run_named (cfg : Config) (ops : List Op) : ∀ (s s1 : Session),
    session_named s → run cfg ops s = some s1 → session_named s1 := by
  induction ops with
  | nil => intro s s1 hs hr; simp only [run] at hr; cases hr; exact hs
  | cons op ops ih =>
    intro s s1 hs hr
    simp only [run] at hr
    split at hr
    · cases hr
    · rename_i s2 hstep
      exact ih s2 s1 (step_named cfg op s s2 hs hstep) hr

/-- C18: in every state reached from `input_file_begin` by a sequence of
open, close, give-next-buffer, push and pop calls (each pop on a token of an
earlier push that no pop has consumed), the display name is non-empty
whenever a file is open; and opening the empty name sets the display name
`{standard input}` and leaves either nothing or `stdin` open. -/
theorem C18_display_name_invariant (cfg : Config) (w0 : World) (ops : List Op)
    (s : Session)
    (hr : run cfg ops { w := input_file_begin w0, saved := [] } = some s) :
    (s.w.f_in ≠ none → ∃ n, s.w.file_name = some n ∧ n ≠ "") ∧
    (∀ (pre : Int) (w w1 : World), input_file_open cfg "" pre w = some w1 →
      w1.file_name = some "\x7bstandard input\x7d" ∧
      (w1.f_in = none ∨ w1.f_in = some stdin)) := by
  constructor
  · have h0 : session_named { w := input_file_begin w0, saved := [] } :=
      ⟨fun hne => absurd rfl hne, fun t ht => by cases ht⟩
    exact (run_named cfg ops _ s h0 hr).1
  · intro pre w w1 ho
    refine ⟨?_, ?_⟩
    · rw [open_file_name cfg "" pre w w1 ho, open_raw_file_name]
      simp
    · cases hin : w1.f_in with
      | none => exact Or.inl rfl
      | some h =>
        right
        have hs : ∃ f0, (open_raw "" w).streams stdin = some f0 := by
          unfold input_file_open at ho
          simp only [open_raw_preprocess] at ho
          simp only [open_raw] at ho ⊢
          simp only [ne_eq, not_true_eq_false, if_false] at ho ⊢
          cases hst : w.streams stdin with
          | none => simp [hst] at ho
          | some f0 => exact ⟨f0, rfl⟩
        obtain ⟨f0, hf0⟩ := hs
        have hopen : opens_stream "" w stdin f0 := ⟨by simp [open_raw], hf0⟩
        obtain ⟨e, -⟩ := open_inv cfg "" pre w w1 h stdin f0 ho hin hopen
        rw [e]
/-- C18 at a concrete input: open a file, push, open the empty standard
input in the nested session, pop. -/
theorem C18_display_name_invariant_witness :
    ∃ s, run cfg_hash [Op.open_file "a.s" 0, Op.push, Op.open_file "" 1, Op.pop 0]
        { w := input_file_begin (world_with "a.s" [120, 10]), saved := [] } = some s ∧
      s.w.f_in = some 1 ∧ ∃ n, s.w.file_name = some n ∧ n ≠ "" :=
  ⟨_, rfl, rfl,
    (C18_display_name_invariant cfg_hash (world_with "a.s" [120, 10])
      [Op.open_file "a.s" 0, Op.push, Op.open_file "" 1, Op.pop 0] _ rfl).1 (by decide)⟩

/-! ## C20: the lookahead is bounded -/

theorem fgets_loop_drop_le (n : Nat) : ∀ (acc : List Nat) (f : FILE),
    ∃ k, k ≤ n ∧ (fgets_loop n acc f).2.content = f.content.drop k := by
  induction n with
  | zero => intro acc f; exact ⟨0, Nat.le_refl _, rfl⟩
  | succ n ih =>
    intro acc f
    cases hf : f.eof
    · cases hc : f.content with
      | nil => exact ⟨0, Nat.zero_le _, by simp [fgets_loop, hf, hc]⟩
      | cons e rest =>
        cases e with
        | fail => exact ⟨1, Nat.succ_le_succ (Nat.zero_le _), by simp [fgets_loop, hf, hc]⟩
        | byte b =>
          by_cases hb : b = 10
          · exact ⟨1, Nat.succ_le_succ (Nat.zero_le _), by simp [fgets_loop, hf, hc, hb]⟩
          · obtain ⟨k, hk1, hk⟩ := ih (acc ++ [b]) { f with content := rest }
            exact ⟨k + 1, Nat.succ_le_succ hk1, by simpa [fgets_loop, hf, hc, hb] using hk⟩
    · exact ⟨0, Nat.zero_le _, by simp [fgets_loop, hf]⟩

theorem fgets_loop_length (n : Nat) : ∀ (acc : List Nat) (f : FILE) (l : List Nat),
    (fgets_loop n acc f).1 = some l → l.length ≤ acc.length + n := by
  induction n with
  | zero =>
    intro acc f l hl
    simp only [fgets_loop, Option.some.injEq] at hl
    subst hl
    exact Nat.le_refl _
  | succ n ih =>
    intro acc f l hl
    cases hf : f.eof
    · cases hc : f.content with
      | nil =>
        simp only [fgets_loop, hf, hc, Bool.false_eq_true, if_false] at hl
        split_ifs at hl
        cases hl
        omega
      | cons e rest =>
        cases e with
        | fail => simp [fgets_loop, hf, hc] at hl
        | byte b =>
          by_cases hb : b = 10
          · simp only [fgets_loop, hf, hc, hb, Bool.false_eq_true, if_false, if_true,
              Option.some.injEq] at hl
            subst hl
            simp
          · simp only [fgets_loop, hf, hc, hb, Bool.false_eq_true, if_false] at hl
            have h2 := ih (acc ++ [b]) _ l hl
            simp only [List.length_append, List.length_singleton] at h2
            omega
    · simp only [fgets_loop, hf, if_true] at hl
      split_ifs at hl
      cases hl
      omega

theorem getc_drop_le (f : FILE) : ∃ k, k ≤ 1 ∧ (getc f).2.content = f.content.drop k := by
  cases hf : f.eof
  · cases hc : f.content with
    | nil => exact ⟨0, Nat.zero_le _, by simp [getc, hf, hc]⟩
    | cons e rest =>
      cases e with
      | fail => exact ⟨1, Nat.le_refl _, by simp [getc, hf, hc]⟩
      | byte b => exact ⟨1, Nat.le_refl _, by simp [getc, hf, hc]⟩
  · exact ⟨0, Nat.zero_le _, by simp [getc, hf]⟩

theorem sniff_line_drop_le (cfg : Config) (word : List Nat) (value : Int) (lead : Nat)
    (pf : Int × FILE) :
    ∃ c k, (c = lead ∨ c = 10) ∧ k ≤ 79 ∧
      (sniff_line cfg word value lead pf).2.content = Ev.byte c :: pf.2.content.drop k := by
  obtain ⟨k, hk1, hk⟩ := fgets_loop_drop_le (80 - 1) [] pf.2
  refine ⟨_, k, ?_, hk1, by simp only [sniff_line, fgets, ungetc, hk]; rfl⟩
  cases (fgets_loop (80 - 1) [] pf.2).1 with
  | none => exact Or.inl rfl
  | some p =>
    dsimp only
    split_ifs
    · exact Or.inl rfl
    · exact Or.inr rfl

theorem sniff_drop_le (cfg : Config) (c : Nat) (pf : Int × FILE) :
    ∃ c1 k, (c1 = c ∨ c1 = 10) ∧ k ≤ 80 ∧
      (sniff cfg c pf).2.content = Ev.byte c1 :: pf.2.content.drop k := by
  obtain ⟨j, hj1, hj⟩ := getc_drop_le pf.2
  unfold sniff
  dsimp only
  split_ifs
  · obtain ⟨c1, k, hc1, hk1, hk⟩ :=
      sniff_line_drop_le cfg [79, 95, 65, 80, 80] 0 c (pf.1, (getc pf.2).2)
    exact ⟨c1, j + k, hc1, by omega, by rw [hk]; simp only [hj, List.drop_drop]⟩
  · obtain ⟨c1, k, hc1, hk1, hk⟩ := sniff_line_drop_le cfg [80, 80] 1 c (pf.1, (getc pf.2).2)
    exact ⟨c1, j + k, hc1, by omega, by rw [hk]; simp only [hj, List.drop_drop]⟩
  · exact ⟨10, j, Or.inr rfl, by omega, by simp only [ungetc, hj]⟩
  · exact ⟨c, j, Or.inl rfl, by omega, by simp only [ungetc, hj]⟩
  · exact ⟨c, 0, Or.inl rfl, by omega, by simp only [ungetc, List.drop_zero]⟩

/-- C20: for every stream whose first byte `c` can be read, the stream after
`input_file_open` is one pushed-back byte (`c` or a newline) followed by the
original stream from an offset between 1 and 81, so open removes at most 80
bytes net; and a line that `fgets` stores in the 80-byte buffer has at most
79 bytes, 80 with the terminator. -/
theorem C20_bounded_lookahead (cfg : Config) (filename : String) (pre : Int) (w : World)
    (h : Nat) (f : FILE) (c : Nat) (rest : List Ev)
    (ho : opens_stream filename w h f) (hf : f.eof = false) (he : f.err = false)
    (hc : f.content = Ev.byte c :: rest) :
    (∃ w1 f1 b k, input_file_open cfg filename pre w = some w1 ∧ w1.f_in = some h ∧
      w1.streams h = some f1 ∧ (b = c ∨ b = 10) ∧ 1 ≤ k ∧ k ≤ 81 ∧
      f1.content = Ev.byte b :: f.content.drop k ∧
      f.content.length ≤ f1.content.length + 80) ∧
    (∀ (g : FILE) (l : List Nat), (fgets 80 g).1 = some l → l.length + 1 ≤ 80) := by
  constructor
  · obtain ⟨w1, h1, h2, -, h4, -⟩ := open_first_byte cfg filename pre w h f c rest ho hf he hc
    obtain ⟨b, k, hb, hk1, hk⟩ := sniff_drop_le cfg c (pre, { f with content := rest })
    refine ⟨w1, _, b, k + 1, h1, h2, h4, hb, by omega, by omega, ?_, ?_⟩
    · rw [hk, hc]; rfl
    · rw [hk, hc]
      simp only [List.length_cons, List.length_drop]
      omega
  · intro g l hl
    have h2 := fgets_loop_length (80 - 1) [] g l hl
    simp only [List.length_nil] at h2
    omega

/-- C20 at a concrete input: the file `#NO_APP` and a newline, then `x`. -/
theorem C20_bounded_lookahead_witness :
    ∃ w1 f1 b k, input_file_open cfg_hash "a.s" 1
        (world_with "a.s" [35, 78, 79, 95, 65, 80, 80, 10, 120]) = some w1 ∧
      w1.f_in = some 1 ∧ w1.streams 1 = some f1 ∧ (b = 35 ∨ b = 10) ∧ 1 ≤ k ∧ k ≤ 81 ∧
      f1.content = Ev.byte b :: (fresh [35, 78, 79, 95, 65, 80, 80, 10, 120]).content.drop k ∧
      (fresh [35, 78, 79, 95, 65, 80, 80, 10, 120]).content.length ≤ f1.content.length + 80 :=
  (C20_bounded_lookahead cfg_hash "a.s" 1
    (world_with "a.s" [35, 78, 79, 95, 65, 80, 80, 10, 120]) 1
    (fresh [35, 78, 79, 95, 65, 80, 80, 10, 120]) 35
    (bytes [78, 79, 95, 65, 80, 80, 10, 120]) ⟨rfl, rfl⟩ rfl rfl rfl).1

/-! ## C15: only the first line is inspected -/

theorem fgets_loop_found (ps : List Nat) : ∀ (n : Nat) (acc : List Nat) (f : FILE)
    (t : List Ev), f.eof = false → f.content = bytes ps ++ Ev.byte 10 :: t → 10 ∉ ps →
    ps.length < n →
    fgets_loop n acc f = (some (acc ++ ps ++ [10]), { f with content := t }) := by
  induction ps with
  | nil =>
    intro n acc f t hf hc _ hlt
    cases n with
    | zero => exact absurd hlt (Nat.lt_irrefl _)
    | succ n =>
      simp only [bytes, List.map_nil, List.nil_append] at hc
      simp [fgets_loop, hf, hc]
  | cons b ps ih =>
    intro n acc f t hf hc hps hlt
    cases n with
    | zero => exact absurd hlt (Nat.not_lt_zero _)
    | succ n =>
      have hb : ¬ b = 10 := fun e => hps (e ▸ List.mem_cons_self _ _)
      simp only [bytes, List.map_cons, List.cons_append] at hc
      have h2 := ih n (acc ++ [b]) { f with content := bytes ps ++ Ev.byte 10 :: t } t hf rfl
        (fun e => hps (List.mem_cons_of_mem _ e)) (Nat.lt_of_succ_lt_succ hlt)
      simp only [bytes, hf] at h2
      simp [fgets_loop, hf, hc, hb, h2]

theorem fgets_loop_long (ps : List Nat) : ∀ (n : Nat) (acc : List Nat) (f : FILE)
    (evs : List Ev), f.eof = false → f.content = bytes ps ++ evs → 10 ∉ ps →
    n ≤ ps.length →
    fgets_loop n acc f =
      (some (acc ++ ps.take n), { f with content := bytes (ps.drop n) ++ evs }) := by
  induction ps with
  | nil =>
    intro n acc f evs hf hc _ hle
    have hn : n = 0 := Nat.le_zero.mp hle
    subst hn
    cases f
    simp_all [fgets_loop, bytes]
  | cons b ps ih =>
    intro n acc f evs hf hc hps hle
    cases n with
    | zero =>
      cases f
      simp_all [fgets_loop, bytes]
    | succ n =>
      have hb : ¬ b = 10 := fun e => hps (e ▸ List.mem_cons_self _ _)
      simp only [bytes, List.map_cons, List.cons_append] at hc
      have h2 := ih n (acc ++ [b]) { f with content := bytes ps ++ evs } evs hf rfl
        (fun e => hps (List.mem_cons_of_mem _ e)) (Nat.le_of_succ_le_succ hle)
      simp only [bytes, hf] at h2
      simp [fgets_loop, hf, hc, hb, h2, bytes]

/-- The line branch of the sniffer looks at nothing behind the first
newline: flag and retained bytes are fixed by the bytes before it. -/
theorem sniff_line_local (cfg : Config) (word : List Nat) (value : Int) (lead : Nat)
    (pre : Int) (ps : List Nat) (hps : 10 ∉ ps) :
    ∃ (fl : Int) (q : List Ev), ∀ (t : List Ev) (f : FILE), f.eof = false →
      f.content = bytes ps ++ Ev.byte 10 :: t →
      (sniff_line cfg word value lead (pre, f)).1 = fl ∧
      (sniff_line cfg word value lead (pre, f)).2.content = q ++ t := by
  by_cases hlen : ps.length < 79
  · refine ⟨if startswith (ps ++ [10]) word &&
        cfg.is_end_of_line (char_at (ps ++ [10]) word.length) then value else pre,
      [Ev.byte (if !strchr (ps ++ [10]) 10 then lead else 10)], ?_⟩
    intro t f hf hc
    have h1 := fgets_loop_found ps 79 [] f t hf hc hps hlen
    simp only [List.nil_append] at h1
    simp [sniff_line, fgets, h1, ungetc]
  · refine ⟨if startswith (ps.take 79) word &&
        cfg.is_end_of_line (char_at (ps.take 79) word.length) then value else pre,
      Ev.byte (if !strchr (ps.take 79) 10 then lead else 10) ::
        (bytes (ps.drop 79) ++ [Ev.byte 10]), ?_⟩
    intro t f hf hc
    have h1 := fgets_loop_long ps 79 [] f (Ev.byte 10 :: t) hf hc hps (Nat.le_of_not_lt hlen)
    simp only [List.nil_append] at h1
    simp [sniff_line, fgets, h1, ungetc]
theorem sniff_N (cfg : Config) (c : Nat) (pre : Int) (f : FILE) (rest : List Ev)
    (ht : is_trigger cfg c = true) (hf : f.eof = false)
    (hc : f.content = Ev.byte 78 :: rest) :
    sniff cfg c (pre, f) =
      sniff_line cfg [79, 95, 65, 80, 80] 0 c (pre, { f with content := rest }) := by
  simp [sniff, ht, getc_byte f 78 rest hf hc]

theorem sniff_A (cfg : Config) (c : Nat) (pre : Int) (f : FILE) (rest : List Ev)
    (ht : is_trigger cfg c = true) (hf : f.eof = false)
    (hc : f.content = Ev.byte 65 :: rest) :
    sniff cfg c (pre, f) = sniff_line cfg [80, 80] 1 c (pre, { f with content := rest }) := by
  simp [sniff, ht, getc_byte f 65 rest hf hc]

/-- The sniffer looks at nothing behind the first newline. -/
theorem sniff_local (cfg : Config) (c : Nat) (pre : Int) (ps : List Nat) (hps : 10 ∉ ps) :
    ∃ (fl : Int) (q : List Ev), ∀ (t : List Ev) (f : FILE), f.eof = false →
      f.content = bytes ps ++ Ev.byte 10 :: t →
      (sniff cfg c (pre, f)).1 = fl ∧ (sniff cfg c (pre, f)).2.content = q ++ t := by
  cases ht : is_trigger cfg c
  · refine ⟨pre, Ev.byte c :: (bytes ps ++ [Ev.byte 10]), ?_⟩
    intro t f hf hc
    rw [sniff_not_trigger cfg c _ ht]
    simp [ungetc, hc]
  · cases ps with
    | nil =>
      refine ⟨pre, [Ev.byte 10], ?_⟩
      intro t f hf hc
      rw [sniff_newline cfg c pre f t ht hf (by simpa [bytes] using hc)]
      simp
    | cons c2 ps =>
      have h10 : c2 ≠ 10 := fun e => hps (e ▸ List.mem_cons_self _ _)
      have hps2 : 10 ∉ ps := fun e => hps (List.mem_cons_of_mem _ e)
      by_cases hN : c2 = 78
      · subst hN
        obtain ⟨fl, q, hq⟩ := sniff_line_local cfg [79, 95, 65, 80, 80] 0 c pre ps hps2
        refine ⟨fl, q, ?_⟩
        intro t f hf hc
        rw [sniff_N cfg c pre f (bytes ps ++ Ev.byte 10 :: t) ht hf (by simpa [bytes] using hc)]
        exact hq t _ hf rfl
      · by_cases hA : c2 = 65
        · subst hA
          obtain ⟨fl, q, hq⟩ := sniff_line_local cfg [80, 80] 1 c pre ps hps2
          refine ⟨fl, q, ?_⟩
          intro t f hf hc
          rw [sniff_A cfg c pre f (bytes ps ++ Ev.byte 10 :: t) ht hf
            (by simpa [bytes] using hc)]
          exact hq t _ hf rfl
        · refine ⟨pre, Ev.byte c :: (bytes ps ++ [Ev.byte 10]), ?_⟩
          intro t f hf hc
          rw [sniff_other cfg c c2 pre f (bytes ps ++ Ev.byte 10 :: t) ht hf
            (by simpa [bytes] using hc) hN hA h10]
          simp

/-- C15: when newline is not the comment trigger, for two streams that agree
up to and including their first newline (the bytes `ps`, then the newline),
`input_file_open` gives the same `preprocess` on both, and the stream after
open is, on each, the same retained bytes followed by everything that came
after the first newline, unconsumed and in order. -/
theorem C15_only_first_line (cfg : Config) (pre : Int) (ps : List Nat) (t1 t2 : List Ev)
    (name1 name2 : String) (wa wb : World) (h1 h2 : Nat) (f1 f2 : FILE)
    (hnl : is_trigger cfg 10 = false) (hps : 10 ∉ ps)
    (ho1 : opens_stream name1 wa h1 f1) (hf1 : f1.eof = false) (he1 : f1.err = false)
    (hc1 : f1.content = bytes ps ++ Ev.byte 10 :: t1)
    (ho2 : opens_stream name2 wb h2 f2) (hf2 : f2.eof = false) (he2 : f2.err = false)
    (hc2 : f2.content = bytes ps ++ Ev.byte 10 :: t2) :
    ∃ w1 w2 g1 g2 q,
      input_file_open cfg name1 pre wa = some w1 ∧
      input_file_open cfg name2 pre wb = some w2 ∧
      w1.preprocess = w2.preprocess ∧
      w1.f_in = some h1 ∧ w1.streams h1 = some g1 ∧ g1.content = q ++ t1 ∧
      w2.f_in = some h2 ∧ w2.streams h2 = some g2 ∧ g2.content = q ++ t2 := by
  cases ps with
  | nil =>
    simp only [bytes, List.map_nil, List.nil_append] at hc1 hc2
    obtain ⟨w1, a1, a2, a3, a4, -⟩ := open_first_byte cfg name1 pre wa h1 f1 10 t1 ho1 hf1 he1 hc1
    obtain ⟨w2, b1, b2, b3, b4, -⟩ := open_first_byte cfg name2 pre wb h2 f2 10 t2 ho2 hf2 he2 hc2
    rw [sniff_not_trigger cfg 10 _ hnl] at a3 a4 b3 b4
    exact ⟨w1, w2, _, _, [Ev.byte 10], a1, b1, a3.trans b3.symm, a2, a4, rfl, b2, b4, rfl⟩
  | cons c ps =>
    have hps2 : 10 ∉ ps := fun e => hps (List.mem_cons_of_mem _ e)
    simp only [bytes, List.map_cons, List.cons_append] at hc1 hc2
    obtain ⟨w1, a1, a2, a3, a4, -⟩ := open_first_byte cfg name1 pre wa h1 f1 c _ ho1 hf1 he1 hc1
    obtain ⟨w2, b1, b2, b3, b4, -⟩ := open_first_byte cfg name2 pre wb h2 f2 c _ ho2 hf2 he2 hc2
    obtain ⟨fl, q, hq⟩ := sniff_local cfg c pre ps hps2
    obtain ⟨x1, x2⟩ := hq t1 { f1 with content := List.map Ev.byte ps ++ Ev.byte 10 :: t1 } hf1 rfl
    obtain ⟨y1, y2⟩ := hq t2 { f2 with content := List.map Ev.byte ps ++ Ev.byte 10 :: t2 } hf2 rfl
    exact ⟨w1, w2, _, _, q, a1, b1, (a3.trans x1).trans (b3.trans y1).symm,
      a2, a4, x2, b2, b4, y2⟩

/-- C15 at a concrete input: two files that begin with `#NO_APP` and a
newline and continue differently. -/
theorem C15_only_first_line_witness :
    ∃ w1 w2 g1 g2 q,
      input_file_open cfg_hash "a.s" 1 (world_with "a.s" [35, 78, 79, 95, 65, 80, 80, 10, 120])
        = some w1 ∧
      input_file_open cfg_hash "b.s" 1 (world_with "b.s" [35, 78, 79, 95, 65, 80, 80, 10, 121])
        = some w2 ∧
      w1.preprocess = w2.preprocess ∧
      w1.f_in = some 1 ∧ w1.streams 1 = some g1 ∧ g1.content = q ++ bytes [120] ∧
      w2.f_in = some 1 ∧ w2.streams 1 = some g2 ∧ g2.content = q ++ bytes [121] :=
  C15_only_first_line cfg_hash 1 [35, 78, 79, 95, 65, 80, 80] (bytes [120]) (bytes [121])
    "a.s" "b.s" (world_with "a.s" [35, 78, 79, 95, 65, 80, 80, 10, 120])
    (world_with "b.s" [35, 78, 79, 95, 65, 80, 80, 10, 121]) 1 1
    (fresh [35, 78, 79, 95, 65, 80, 80, 10, 120]) (fresh [35, 78, 79, 95, 65, 80, 80, 10, 121])
    rfl (by decide) ⟨rfl, rfl⟩ rfl rfl rfl ⟨rfl, rfl⟩ rfl rfl rfl

/-! ## C12: what is pushed back after the line read -/

theorem cstr_eq_self (l : List Nat) (h0 : 0 ∉ l) : cstr l = l := by
  induction l with
  | nil => rfl
  | cons b l ih =>
    have hb : ¬ b = 0 := fun e => h0 (e ▸ List.mem_cons_self _ _)
    have h2 := ih (fun e => h0 (List.mem_cons_of_mem _ e))
    simp only [cstr] at h2 ⊢
    simp [List.takeWhile_cons, hb, h2]

theorem strchr_false (l : List Nat) (c : Nat) (hc : c ∉ l) : strchr l c = false := by
  induction l with
  | nil => simp [strchr, cstr]
  | cons b l ih =>
    have hb : ¬ c = b := fun e => hc (e ▸ List.mem_cons_self _ _)
    have h2 := ih (fun e => hc (List.mem_cons_of_mem _ e))
    simp only [strchr, cstr] at h2 ⊢
    by_cases h0 : b = 0
    · simp [List.takeWhile_cons, h0]
    · simp only [List.contains_eq_any_beq] at h2
      simp [List.takeWhile_cons, h0, hb, h2]
      intro hm
      exact hc (List.mem_cons_of_mem _ ((List.takeWhile_sublist _).subset hm))

theorem fgets_loop_short (ps : List Nat) : ∀ (n : Nat) (acc : List Nat) (f : FILE)
    (tail : List Ev), f.eof = false → f.content = bytes ps ++ tail →
    (tail = [] ∨ ∃ rest, tail = Ev.fail :: rest) → 10 ∉ ps → ps.length < n →
    (fgets_loop n acc f).2.content = tail.drop 1 ∧
    ∀ p, (fgets_loop n acc f).1 = some p → p = acc ++ ps := by
  induction ps with
  | nil =>
    intro n acc f tail hf hc ht _ hlt
    cases n with
    | zero => exact absurd hlt (Nat.lt_irrefl _)
    | succ n =>
      simp only [bytes, List.map_nil, List.nil_append] at hc
      rcases ht with rfl | ⟨rest, rfl⟩
      · simp only [fgets_loop, hf, hc, Bool.false_eq_true, if_false]
        refine ⟨rfl, ?_⟩
        intro p hp
        split_ifs at hp
        cases hp
        simp
      · simp [fgets_loop, hf, hc]
  | cons b ps ih =>
    intro n acc f tail hf hc ht hps hlt
    cases n with
    | zero => exact absurd hlt (Nat.not_lt_zero _)
    | succ n =>
      have hb : ¬ b = 10 := fun e => hps (e ▸ List.mem_cons_self _ _)
      simp only [bytes, List.map_cons, List.cons_append] at hc
      have h2 := ih n (acc ++ [b]) { f with content := bytes ps ++ tail } tail hf rfl ht
        (fun e => hps (List.mem_cons_of_mem _ e)) (Nat.lt_of_succ_lt_succ hlt)
      simp only [bytes, hf] at h2
      simpa [fgets_loop, hf, hc, hb] using h2

/-- The rollback after `N` or `A` when the line read holds a newline that no
NUL byte precedes: a single newline is pushed back in front of what follows
the line. -/
theorem sniff_line_rollback_found (cfg : Config) (word : List Nat) (value : Int)
    (lead : Nat) (pre : Int) (f : FILE) (ps : List Nat) (t : List Ev)
    (hf : f.eof = false) (hc : f.content = bytes ps ++ Ev.byte 10 :: t)
    (hps : 10 ∉ ps) (h0 : 0 ∉ ps) (hlen : ps.length < 79) :
    (sniff_line cfg word value lead (pre, f)).2.content = Ev.byte 10 :: t := by
  have h1 := fgets_loop_found ps 79 [] f t hf hc hps hlen
  simp only [List.nil_append] at h1
  have h2 : strchr (ps ++ [10]) 10 = true := by
    have h3 : (0 : Nat) ∉ ps ++ [10] := by simp [h0]
    simp [strchr, cstr_eq_self _ h3]
  simp [sniff_line, fgets, h1, ungetc, h2]

/-- The rollback after `N` or `A` when the 79 bytes read hold no newline: the
trigger is pushed back in front of what follows those bytes. -/
theorem sniff_line_rollback_long (cfg : Config) (word : List Nat) (value : Int)
    (lead : Nat) (pre : Int) (f : FILE) (ps : List Nat) (evs : List Ev)
    (hf : f.eof = false) (hc : f.content = bytes ps ++ evs)
    (hps : 10 ∉ ps) (hlen : 79 ≤ ps.length) :
    (sniff_line cfg word value lead (pre, f)).2.content =
      Ev.byte lead :: (bytes (ps.drop 79) ++ evs) := by
  have h1 := fgets_loop_long ps 79 [] f evs hf hc hps hlen
  simp only [List.nil_append] at h1
  have h2 : strchr (ps.take 79) 10 = false :=
    strchr_false _ 10 (fun e => hps (List.mem_of_mem_take e))
  simp [sniff_line, fgets, h1, ungetc, h2]

/-- The rollback after `N` or `A` when the stream ends, or a read fails,
before a newline and before 79 bytes: the trigger is pushed back in front of
what follows. -/
theorem sniff_line_rollback_short (cfg : Config) (word : List Nat) (value : Int)
    (lead : Nat) (pre : Int) (f : FILE) (ps : List Nat) (tail : List Ev)
    (hf : f.eof = false) (hc : f.content = bytes ps ++ tail)
    (ht : tail = [] ∨ ∃ rest, tail = Ev.fail :: rest)
    (hps : 10 ∉ ps) (hlen : ps.length < 79) :
    (sniff_line cfg word value lead (pre, f)).2.content = Ev.byte lead :: tail.drop 1 := by
  obtain ⟨h1, h2⟩ := fgets_loop_short ps 79 [] f tail hf hc ht hps hlen
  simp only [List.nil_append] at h2
  simp only [sniff_line, fgets, ungetc, h1]
  cases hp : (fgets_loop (80 - 1) [] f).1 with
  | none => rfl
  | some p =>
    have h3 := h2 p hp
    subst h3
    simp [strchr_false _ 10 hps]
/-- C12 fails on the code: in the file `#N`, NUL, newline, `x`, newline the
line read after `#N` is complete (it ends with the newline), yet the NUL
hides the newline from `strchr`, so the trigger is pushed back instead: the
stream afterwards reads `#x` and a newline, not a newline, `x`, newline. -/
theorem C12_newline_hidden_by_nul :
    (fgets 80 (fresh [0, 10, 120, 10])).1 = some [0, 10] ∧
    (input_file_open cfg_hash "a.s" 1 (world_with "a.s" [35, 78, 0, 10, 120, 10])).map
      (fun w1 => w1.streams 1) = some (some (fresh [35, 120, 10])) := by
  decide

/-! ## C19: the count of newlines -/

theorem newlines_append (a b : List Ev) : newlines (a ++ b) = newlines a + newlines b := by
  simp [newlines, List.count_append]

theorem newlines_bytes (ps : List Nat) (hps : 10 ∉ ps) : newlines (bytes ps) = 0 := by
  induction ps with
  | nil => rfl
  | cons b ps ih =>
    have hb : ¬ b = 10 := fun e => hps (e ▸ List.mem_cons_self _ _)
    have h2 := ih (fun e => hps (List.mem_cons_of_mem _ e))
    simp only [newlines, bytes] at h2 ⊢
    simp [List.count_cons, hb, h2]

theorem newlines_cons_byte (b : Nat) (evs : List Ev) :
    newlines (Ev.byte b :: evs) = newlines evs + (if b = 10 then 1 else 0) := by
  simp [newlines, List.count_cons]

/-- The sniffer keeps the count of newlines when the first line holds no NUL
byte and the first byte is no newline. -/
theorem sniff_newlines (cfg : Config) (c : Nat) (pre : Int) (ps : List Nat) (t : List Ev)
    (f : FILE) (hc10 : c ≠ 10) (hps : 10 ∉ ps) (h0 : 0 ∉ ps)
    (hf : f.eof = false) (hc : f.content = bytes ps ++ Ev.byte 10 :: t) :
    newlines (sniff cfg c (pre, f)).2.content = 1 + newlines t := by
  cases ht : is_trigger cfg c
  · rw [sniff_not_trigger cfg c _ ht]
    simp [ungetc, hc, newlines_cons_byte, newlines_append, newlines_bytes ps hps, hc10]
    omega
  · cases ps with
    | nil =>
      rw [sniff_newline cfg c pre f t ht hf (by simpa [bytes] using hc)]
      simp [newlines_cons_byte]
      omega
    | cons c2 ps =>
      have h10 : c2 ≠ 10 := fun e => hps (e ▸ List.mem_cons_self _ _)
      have hps2 : 10 ∉ ps := fun e => hps (List.mem_cons_of_mem _ e)
      have h02 : 0 ∉ ps := fun e => h0 (List.mem_cons_of_mem _ e)
      have hline : ∀ (word : List Nat) (value : Int),
          newlines (sniff_line cfg word value c
            (pre, { f with content := bytes ps ++ Ev.byte 10 :: t })).2.content =
            1 + newlines t := by
        intro word value
        by_cases hlen : ps.length < 79
        · rw [sniff_line_rollback_found cfg word value c pre
            { f with content := bytes ps ++ Ev.byte 10 :: t } ps t hf rfl hps2 h02 hlen]
          simp [newlines_cons_byte]
          omega
        · rw [sniff_line_rollback_long cfg word value c pre
            { f with content := bytes ps ++ Ev.byte 10 :: t } ps (Ev.byte 10 :: t) hf rfl hps2
            (Nat.le_of_not_lt hlen)]
          simp [newlines_cons_byte, newlines_append, hc10,
            newlines_bytes _ (fun e => hps2 (List.mem_of_mem_drop e))]
          omega
      by_cases hN : c2 = 78
      · subst hN
        rw [sniff_N cfg c pre f (bytes ps ++ Ev.byte 10 :: t) ht hf (by simpa [bytes] using hc)]
        exact hline _ _
      · by_cases hA : c2 = 65
        · subst hA
          rw [sniff_A cfg c pre f (bytes ps ++ Ev.byte 10 :: t) ht hf
            (by simpa [bytes] using hc)]
          exact hline _ _
        · rw [sniff_other cfg c c2 pre f (bytes ps ++ Ev.byte 10 :: t) ht hf
            (by simpa [bytes] using hc) hN hA h10]
          simp [newlines_cons_byte, newlines_append, newlines_bytes ps hps2, hc10]
          omega

/-- After `input_file_open` the stream holds as many newlines as the file,
when the first line (the bytes `c :: ps` before the first newline) holds no
NUL byte. -/
theorem open_keeps_newlines (cfg : Config) (filename : String) (pre : Int) (w : World)
    (h : Nat) (f : FILE) (c : Nat) (ps : List Nat) (t : List Ev)
    (ho : opens_stream filename w h f) (hf : f.eof = false) (he : f.err = false)
    (hc : f.content = bytes (c :: ps) ++ Ev.byte 10 :: t)
    (hps : 10 ∉ c :: ps) (h0 : 0 ∉ ps) :
    ∃ w1 g, input_file_open cfg filename pre w = some w1 ∧ w1.f_in = some h ∧
      w1.streams h = some g ∧ newlines g.content = newlines f.content := by
  have hc10 : c ≠ 10 := fun e => hps (e ▸ List.mem_cons_self _ _)
  have hps2 : 10 ∉ ps := fun e => hps (List.mem_cons_of_mem _ e)
  obtain ⟨w1, h1, h2, -, h4, -⟩ :=
    open_first_byte cfg filename pre w h f c (bytes ps ++ Ev.byte 10 :: t) ho hf he
      (by simpa [bytes] using hc)
  refine ⟨w1, _, h1, h2, h4, ?_⟩
  rw [sniff_newlines cfg c pre ps t { f with content := bytes ps ++ Ev.byte 10 :: t }
    hc10 hps2 h0 hf rfl, hc]
  simp [bytes, newlines_cons_byte, newlines_append, hc10]
  have h5 := newlines_bytes ps hps2
  simp only [bytes] at h5
  omega
/-- C19 fails on the code: the file `#A`, `x`, NUL, newline, `y`, newline
holds two newlines, the stream after `input_file_open` holds one. -/
theorem C19_newline_lost :
    newlines (fresh [35, 65, 120, 0, 10, 121, 10]).content = 2 ∧
    (input_file_open cfg_hash "a.s" 1 (world_with "a.s" [35, 65, 120, 0, 10, 121, 10])).map
      (fun w1 => (w1.streams 1).map (fun g => (g.content, newlines g.content))) =
      some (some (bytes [35, 121, 10], 1)) := by
  decide

end InputFile
